import Mathlib

/-!
Shallow embedding of the `bfa` crate (`src/lib.rs`): a Brainfuck-like program
over a ring of 4-bit cells is compiled to a DFA over the alphabet {0..15},
the DFA is minimized by partition refinement, and emitted as Graphviz DOT.

The embedding follows the Rust source function by function:
* `Instruction`, `Program` — the instruction set and parsed program;
* `u4get` / `u4set` — the packed nibble vector `U4Vec` (bytes are `Nat`
  values kept below 256, two 4-bit cells per byte);
* `scanBack` / `scanForward` — the bracket scans of `run_with_next_input`;
* `engineStep` / `runLoop` / `run_with_next_input` — the symbolic engine,
  with explicit fuel (the Rust loop has no structural bound; termination is
  proved separately);
* `buildLoop` / `buildTable` — the subset construction `Table::build`;
* `minimizeLoop` / `minimizeTable` — `Table::minimize`;
* `dotString` — `Table::dot`.
-/

namespace BFA

/-- The eight instructions of the source language (`enum Instruction`). -/
inductive Instruction : Type where
  | moveLeft
  | moveRight
  | increment
  | decrement
  | startLoop
  | endLoop
  | read
  | accept
deriving DecidableEq, Repr

/-- `Instruction::from_char`. -/
def Instruction.fromChar (c : Char) : Option Instruction :=
  if c = '<' then some .moveLeft
  else if c = '>' then some .moveRight
  else if c = '+' then some .increment
  else if c = '-' then some .decrement
  else if c = '[' then some .startLoop
  else if c = ']' then some .endLoop
  else if c = ',' then some .read
  else if c = '.' then some .accept
  else none

/-- `struct Program`: a cell count and an instruction sequence.
The Rust field is `NonZeroUsize`; positivity is carried as a hypothesis. -/
structure Program : Type where
  cellCount : ℕ
  instructions : List Instruction
deriving DecidableEq, Repr

/-- `U4Vec::get`: the 4-bit cell at `index`; cell `2k` is the low nibble of
byte `k`, cell `2k+1` the high nibble.  `>> (4 * (index & 1))` is division by
`16 ^ (index % 2)` and `& 0x0F` is `% 16`. -/
def u4get (bytes : List ℕ) (index : ℕ) : ℕ :=
  bytes.getD (index / 2) 0 / 16 ^ (index % 2) % 16

/-- `U4Vec::set`: write `value & 0x0F` into the nibble of cell `index`,
preserving the other nibble of the byte (bytes are `u8`, i.e. `< 256`). -/
def u4set (bytes : List ℕ) (index : ℕ) (value : ℕ) : List ℕ :=
  let b := bytes.getD (index / 2) 0
  bytes.set (index / 2)
    (if index % 2 = 0 then b / 16 * 16 + value % 16 else b % 16 + value % 16 * 16)

/-- `struct InnerState`: tape, head position, instruction pointer. -/
structure InnerState : Type where
  cells : List ℕ
  headPosition : ℕ
  instructionPosition : ℕ
deriving DecidableEq, Repr

/-- `struct State`: a DFA state; `inner = none` is the terminal sink. -/
structure DfaState : Type where
  inner : Option InnerState
  accepting : Bool
deriving DecidableEq, Repr

/-- The backward bracket scan of the `EndLoop` arm, with the scan length
(`ip + 1` positions at most) as a structural counter: from `ip`, `]` counts
`+1` and `[` counts `-1` (the initial `]` included); stop at the `[` that
brings the count to zero, or return `none` after processing position `0`
without a match (the engine then halts into the sink). -/
def scanBackAux (instrs : List Instruction) : ℕ → ℕ → ℤ → Option ℕ
  | 0, _, _ => none
  | fuel + 1, ip, nesting =>
    match instrs.get? ip with
    | none => none
    | some i =>
      match i with
      | .startLoop =>
          if nesting - 1 = 0 then some ip
          else if ip = 0 then none
          else scanBackAux instrs fuel (ip - 1) (nesting - 1)
      | .endLoop =>
          if ip = 0 then none
          else scanBackAux instrs fuel (ip - 1) (nesting + 1)
      | _ =>
          if ip = 0 then none
          else scanBackAux instrs fuel (ip - 1) nesting

/-- The backward scan itself: at most `ip + 1` positions are visited. -/
def scanBack (instrs : List Instruction) (ip : ℕ) (nesting : ℤ) : Option ℕ :=
  scanBackAux instrs (ip + 1) ip nesting

/-- One-step unfolding of `scanBack`. -/
theorem scanBack_eq (instrs : List Instruction) (ip : ℕ) (nesting : ℤ) :
    scanBack instrs ip nesting =
      match instrs.get? ip with
      | none => none
      | some i =>
        match i with
        | .startLoop =>
            if nesting - 1 = 0 then some ip
            else if ip = 0 then none else scanBack instrs (ip - 1) (nesting - 1)
        | .endLoop => if ip = 0 then none else scanBack instrs (ip - 1) (nesting + 1)
        | _ => if ip = 0 then none else scanBack instrs (ip - 1) nesting := by
  rw [show scanBack instrs ip nesting
      = scanBackAux instrs (ip + 1) ip nesting from rfl, scanBackAux]
  rcases hget : instrs.get? ip with _ | i
  · simp only [hget]
  · have hrec : ip ≠ 0 → ∀ m : ℤ,
        scanBackAux instrs ip (ip - 1) m = scanBack instrs (ip - 1) m := by
      intro hip m
      rw [show scanBack instrs (ip - 1) m
          = scanBackAux instrs (ip - 1 + 1) (ip - 1) m from rfl,
        show ip - 1 + 1 = ip from by omega]
    have hif : ∀ m : ℤ,
        (if ip = 0 then none else scanBackAux instrs ip (ip - 1) m)
          = (if ip = 0 then none else scanBack instrs (ip - 1) m) := by
      intro m
      by_cases hip : ip = 0
      · rw [if_pos hip, if_pos hip]
      · rw [if_neg hip, if_neg hip]
        exact hrec hip m
    cases i
    case startLoop =>
      simp only [hget]
      by_cases hn : nesting - 1 = 0
      · rw [if_pos hn, if_pos hn]
      · rw [if_neg hn, if_neg hn]
        exact hif _
    all_goals simp only [hget]
    all_goals exact hif _

/-- The forward bracket scan of the `StartLoop` arm (zero cell), with the
scan length (`instrs.length - ip` positions at most) as a structural
counter: from `ip`, `[` counts `+1` and `]` counts `-1`; stop at the `]`
that brings the count to zero, or return `none` on running past the end of
the program. -/
def scanForwardAux (instrs : List Instruction) : ℕ → ℕ → ℤ → Option ℕ
  | 0, _, _ => none
  | fuel + 1, ip, nesting =>
    if h : ip < instrs.length then
      let i := instrs[ip]
      let nesting' : ℤ :=
        match i with
        | .startLoop => nesting + 1
        | .endLoop => nesting - 1
        | _ => nesting
      if i = .endLoop ∧ nesting' = 0 then some ip
      else if ip + 1 = instrs.length then none
      else scanForwardAux instrs fuel (ip + 1) nesting'
    else none

/-- The forward scan itself: at most `instrs.length - ip` positions are
visited. -/
def scanForward (instrs : List Instruction) (ip : ℕ) (nesting : ℤ) : Option ℕ :=
  scanForwardAux instrs (instrs.length - ip) ip nesting

/-- One-step unfolding of `scanForward`. -/
theorem scanForward_eq (instrs : List Instruction) (ip : ℕ) (nesting : ℤ) :
    scanForward instrs ip nesting =
      (if h : ip < instrs.length then
        let i := instrs[ip]
        let nesting' : ℤ :=
          match i with
          | .startLoop => nesting + 1
          | .endLoop => nesting - 1
          | _ => nesting
        if i = .endLoop ∧ nesting' = 0 then some ip
        else if ip + 1 = instrs.length then none
        else scanForward instrs (ip + 1) nesting'
      else none) := by
  by_cases h : ip < instrs.length
  · have hfuel : instrs.length - ip = (instrs.length - (ip + 1)) + 1 := by omega
    rw [scanForward, hfuel, scanForwardAux, dif_pos h, dif_pos h]
    rfl
  · have hfuel : instrs.length - ip = 0 := by omega
    rw [scanForward, hfuel, scanForwardAux, dif_neg h]

/-- One step of the engine loop of `Program::run_with_next_input`:
either the loop body transforms the configuration, or the call returns. -/
inductive StepResult : Type where
  | halted (s : DfaState)
  | next (st : InnerState) (accepting : Bool) (seen : List InnerState)
deriving Repr

/-- The body of the `while let` loop of `run_with_next_input`, acting on the
configuration, the `accepting` flag and the cycle-detection set `seen_states`
(modelled as a list used only through membership). -/
def engineStep (p : Program) (st : InnerState) (acc : Bool)
    (seen : List InnerState) : StepResult :=
  match p.instructions.get? st.instructionPosition with
  | none => .halted ⟨none, acc⟩
  | some instr =>
    match instr with
    | .moveLeft =>
        .next { st with
          headPosition :=
            if st.headPosition = 0 then p.cellCount - 1 else st.headPosition - 1,
          instructionPosition := st.instructionPosition + 1 } acc seen
    | .moveRight =>
        .next { st with
          headPosition :=
            if st.headPosition = p.cellCount - 1 then 0 else st.headPosition + 1,
          instructionPosition := st.instructionPosition + 1 } acc seen
    | .increment =>
        .next { st with
          cells := u4set st.cells st.headPosition
            (u4get st.cells st.headPosition + 1),
          instructionPosition := st.instructionPosition + 1 } acc seen
    | .decrement =>
        .next { st with
          cells := u4set st.cells st.headPosition
            ((u4get st.cells st.headPosition + 255) % 256),
          instructionPosition := st.instructionPosition + 1 } acc seen
    | .endLoop =>
        match scanBack p.instructions st.instructionPosition 0 with
        | none => .halted ⟨none, acc⟩
        | some s => .next { st with instructionPosition := s } acc seen
    | .startLoop =>
        if u4get st.cells st.headPosition = 0 then
          match scanForward p.instructions st.instructionPosition 0 with
          | none => .halted ⟨none, acc⟩
          | some e => .next { st with instructionPosition := e + 1 } acc seen
        else if st ∈ seen then .halted ⟨none, acc⟩
        else .next { st with instructionPosition := st.instructionPosition + 1 }
          acc (st :: seen)
    | .read =>
        .halted ⟨some { st with instructionPosition := st.instructionPosition + 1 },
          acc⟩
    | .accept =>
        .next { st with instructionPosition := st.instructionPosition + 1 } true seen

/-- The engine loop with explicit fuel; `none` means the fuel ran out
(the Rust loop is unbounded; sufficiency of fuel is proved separately). -/
def runLoop (p : Program) : ℕ → InnerState → Bool → List InnerState →
    Option DfaState
  | 0, _, _, _ => none
  | fuel + 1, st, acc, seen =>
    match engineStep p st acc seen with
    | .halted r => some r
    | .next st' acc' seen' => runLoop p fuel st' acc' seen'

/-- `Program::run_with_next_input`: write `input` into the current cell and
run until the next `Read`, a halt, or a detected configuration cycle. -/
def run_with_next_input (p : Program) (fuel : ℕ) (st : InnerState)
    (input : ℕ) : Option DfaState :=
  runLoop p fuel
    { st with cells := u4set st.cells st.headPosition input } false []

/-! ### `Table::build` (subset construction) -/

/-- One step of the inner `for input in 0..16` loop of `Table::build`:
drive the engine from `inner` with `input`, intern the resulting state
(`state_ids` is the association list, `table` the rows, `stack` the
exploration stack), and write the successor id into row `curId` at column
`input`.  `none` propagates engine fuel exhaustion. -/
def buildInput (p : Program) (efuel : ℕ) (inner : InnerState) (curId : ℕ)
    (acc : Option (List (DfaState × ℕ) × List (Bool × List ℕ) × List DfaState))
    (input : ℕ) :
    Option (List (DfaState × ℕ) × List (Bool × List ℕ) × List DfaState) :=
  match acc with
  | none => none
  | some (ids, table, stack) =>
    match run_with_next_input p efuel inner input with
    | none => none
    | some next =>
      let step :
          List (DfaState × ℕ) × List (Bool × List ℕ) × List DfaState × ℕ :=
        match ids.lookup next with
        | some i => (ids, table, stack, i)
        | none =>
            ((next, table.length) :: ids,
             table ++ [(next.accepting, List.replicate 16 0)],
             next :: stack, table.length)
      match step with
      | (ids', table', stack', nextId) =>
        let row := table'.getD curId (false, [])
        some (ids', table'.set curId (row.1, row.2.set input nextId), stack')

/-- The `while let Some(current) = exploration_stack.pop()` loop of
`Table::build`, with explicit fuel.  A popped sink state gets a self-looping
row; otherwise all 16 successors are explored in ascending input order. -/
def buildLoop (p : Program) (efuel : ℕ) :
    ℕ → List (DfaState × ℕ) → List (Bool × List ℕ) → List DfaState →
    Option (List (DfaState × ℕ) × List (Bool × List ℕ))
  | 0, _, _, _ => none
  | fuel + 1, ids, table, stack =>
    match stack with
    | [] => some (ids, table)
    | current :: stack' =>
      let curId := (ids.lookup current).getD 0
      match current.inner with
      | none =>
          buildLoop p efuel fuel ids
            (table.set curId (current.accepting, List.replicate 16 curId)) stack'
      | some inner =>
          match (List.range 16).foldl (buildInput p efuel inner curId)
              (some (ids, table, stack')) with
          | none => none
          | some (ids', table', stack'') => buildLoop p efuel fuel ids' table' stack''

/-- `Table::build`: seed the machine with a zero tape (`⌈N/2⌉` zero bytes),
head 0, ip 0, run it once with input 0, and explore from the resulting start
state.  Returns the interning map together with the table. -/
def buildTable (p : Program) (efuel fuel : ℕ) :
    Option (List (DfaState × ℕ) × List (Bool × List ℕ)) :=
  let initCells : List ℕ := List.replicate ((p.cellCount + 1) / 2) 0
  match run_with_next_input p efuel ⟨initCells, 0, 0⟩ 0 with
  | none => none
  | some start =>
      buildLoop p efuel fuel [(start, 0)]
        [(start.accepting, List.replicate 16 0)] [start]

/-! ### `Table::minimize` (partition refinement)

The worklist `queue` is a stack; it is modelled head-first (Rust pushes and
pops at the end of a `Vec`, the model pushes and pops at the head of a list;
`contains` is order-independent).  Each split is also recorded as a
`SplitEvent` so that the worklist update policy can be stated. -/

/-- One split performed by the refinement loop: class `part` was split
against the preimage of the popped class; `freshId` is the id handed to the
half not containing the class minimum, `interId`/`remainId` the ids assigned
to intersection and remainder, and `pushed` the id appended to the worklist,
whose content just before the split was `queueBefore`. -/
structure SplitEvent : Type where
  part : ℕ
  freshId : ℕ
  interId : ℕ
  remainId : ℕ
  interLen : ℕ
  remLen : ℕ
  queueBefore : List ℕ
  pushed : ℕ
deriving DecidableEq, Repr

/-- The refinement state: the class of every state, the representative
(minimum member) of every class, the worklist, and the split log. -/
structure MinState : Type where
  partition : List ℕ
  reps : List ℕ
  queue : List ℕ
  events : List SplitEvent
deriving DecidableEq, Repr

/-- The body of the `for part in 0..partition_reps.len()` loop of
`Table::minimize`: split class `part` against the fixed preimage list
`pre` (intersection and remainder are collected in ascending state order,
exactly as `Iterator::partition` does). -/
def splitStep (n : ℕ) (pre : List ℕ) (σ : MinState) (part : ℕ) : MinState :=
  let inter := (List.range n).filter
    (fun s => σ.partition.getD s 0 = part ∧ s ∈ pre)
  let rem := (List.range n).filter
    (fun s => σ.partition.getD s 0 = part ∧ s ∉ pre)
  if inter = [] ∨ rem = [] then σ
  else
    let freshId := σ.reps.length
    let four :=
      if inter.headD 0 < rem.headD 0 then (inter, rem, part, freshId)
      else (rem, inter, freshId, part)
    match four with
    | (lower, higher, interId, remainId) =>
      let partition2 := higher.foldl (fun π s => π.set s freshId) σ.partition
      let reps2 := (σ.reps ++ [higher.headD 0]).set part (lower.headD 0)
      let pushed :=
        if σ.queue.contains interId then remainId
        else if inter.length ≤ rem.length then interId
        else remainId
      ⟨partition2, reps2, pushed :: σ.queue,
        σ.events ++ [⟨part, freshId, interId, remainId,
          inter.length, rem.length, σ.queue, pushed⟩]⟩

/-- The transition of row `i` on `input` in a table (out-of-range reads 0,
unreachable on well-formed tables). -/
def tblTrans (states : List (Bool × List ℕ)) (i input : ℕ) : ℕ :=
  ((states.getD i default).2).getD input 0

/-- One pass of the `for input in 0..16` loop of the refinement: compute
the preimage of the popped class `current` under `input` (with the current
partition) and split every class of the snapshot `0..reps.len()` against
it. -/
def passStep (states : List (Bool × List ℕ)) (current : ℕ) (σ : MinState)
    (input : ℕ) : MinState :=
  let n := states.length
  let pre := (List.range n).filter
    (fun i => σ.partition.getD (tblTrans states i input) 0 = current)
  (List.range σ.reps.length).foldl (splitStep n pre) σ

/-- The `while let Some(current) = queue.pop()` refinement loop, with fuel. -/
def minimizeLoop (states : List (Bool × List ℕ)) :
    ℕ → MinState → Option MinState
  | 0, _ => none
  | fuel + 1, σ =>
    match σ.queue with
    | [] => some σ
    | current :: queue2 =>
      minimizeLoop states fuel
        ((List.range 16).foldl (passStep states current)
          ⟨σ.partition, σ.reps, queue2, σ.events⟩)

/-- `Table::minimize`: initial partition by accepting status (class 0 takes
state 0's flag, class 1 — if any state differs — the opposite), refinement
to a fixpoint of the worklist, then rewrite: one row per class in `reps`
order, transitions remapped through the partition. -/
def minimizeTable (states : List (Bool × List ℕ)) (fuel : ℕ) :
    Option (List (Bool × List ℕ) × List SplitEvent) :=
  let n := states.length
  let initAcc := (states.getD 0 default).1
  let partition := states.map (fun s => if s.1 = initAcc then 0 else 1)
  let firstDiff := (List.range n).find? fun i => (states.getD i default).1 ≠ initAcc
  let reps : List ℕ := match firstDiff with | some i => [0, i] | none => [0]
  let queue : List ℕ := match firstDiff with | some _ => [1, 0] | none => [0]
  match minimizeLoop states fuel ⟨partition, reps, queue, []⟩ with
  | none => none
  | some σ =>
      some (σ.reps.map (fun oldId =>
        let row := states.getD oldId default
        (row.1, row.2.map fun e => σ.partition.getD e 0)), σ.events)

/-! ### `Table::dot` -/

/-- `{n:X}` for a nibble: one uppercase hexadecimal digit. -/
def hexChar (n : ℕ) : Char :=
  if n < 10 then Char.ofNat ('0'.toNat + n) else Char.ofNat ('A'.toNat + n - 10)

/-- The `end_run` closure of `Table::dot`: if a run `[start, input)` is open,
emit it (the edge header first if this is the first run of the edge): runs
shorter than 4 as their member digits, longer runs as `START-END`.  The
`Bool` is the `empty` flag (no header written yet). -/
def endRun (fromId toId : ℕ) (st : Bool × String) (runStart : Option ℕ)
    (input : ℕ) : Bool × String :=
  match runStart with
  | none => st
  | some start =>
    let out₁ :=
      if st.1 then
        (false, st.2 ++ "    " ++ toString fromId ++ " -> " ++ toString toId
          ++ " [label=\"")
      else st
    if input - start < 4 then
      (out₁.1, out₁.2 ++ String.mk (((List.range (input - start)).map
        (fun k => hexChar (start + k)))))
    else
      (out₁.1, out₁.2 ++ String.mk [hexChar start] ++ "-"
        ++ String.mk [hexChar (input - 1)])

/-- The body of the `for (input, &to) in edges.iter().enumerate()` loop of
`Table::dot`: track the open run over one transition entry. -/
def edgeFold (fromId toId : ℕ) (st : Option ℕ × (Bool × String))
    (pair : ℕ × ℕ) : Option ℕ × (Bool × String) :=
  match pair with
  | (input, tgt) =>
    if tgt = toId ∧ st.1 = none then (some input, st.2)
    else if tgt ≠ toId then (none, endRun fromId toId st.2 st.1 input)
    else st

/-- The edge text for one `(from, to)` pair: walk the 16 transitions of
`row`, close the final run at 16, and emit the `"];` trailer if a header
was written. -/
def edgeText (row : List ℕ) (fromId toId : ℕ) (out : String) : String :=
  let r := (row.enum).foldl (edgeFold fromId toId) (none, (true, out))
  let st2 := endRun fromId toId r.2 r.1 16
  if st2.1 then st2.2 else st2.2 ++ "\"];\n"

/-- `Table::dot`: the header, one edge line per ordered `(from, to)` pair
with at least one transition, one `peripheries=2` line per accepting state,
and the closing brace. -/
def dotString (states : List (Bool × List ℕ)) : String :=
  let afterEdges := (List.range states.length).foldl (fun out fromId =>
    (List.range states.length).foldl (fun out2 toId =>
      edgeText (states.getD fromId default).2 fromId toId out2) out)
    "digraph G \x7b\n"
  let afterAccepting := states.enum.foldl (fun out pair =>
    if pair.2.1 then out ++ "    " ++ toString pair.1 ++ "[peripheries=2];\n"
    else out) afterEdges
  afterAccepting ++ "\x7d\n"

/-! ### Basic facts about the packed nibble vector -/

theorem u4get_lt_16 (bytes : List ℕ) (i : ℕ) : u4get bytes i < 16 :=
  Nat.mod_lt _ (by norm_num)

theorem u4set_length (bytes : List ℕ) (i v : ℕ) :
    (u4set bytes i v).length = bytes.length := by
  simp [u4set]

theorem u4get_u4set_self (bytes : List ℕ) (i v : ℕ)
    (h : i / 2 < bytes.length) :
    u4get (u4set bytes i v) i = v % 16 := by
  unfold u4get u4set
  rw [List.getD_eq_getElem?_getD, List.getElem?_set_self (by simpa using h)]
  rcases Nat.mod_two_eq_zero_or_one i with h2 | h2 <;> simp [h2] <;> omega

theorem u4get_u4set_other (bytes : List ℕ) (i j v : ℕ) (hne : j ≠ i) :
    u4get (u4set bytes i v) j = u4get bytes j := by
  unfold u4get u4set
  rcases eq_or_ne (j / 2) (i / 2) with hb | hb
  · rcases Nat.lt_or_ge (i / 2) bytes.length with hlt | hge
    · rw [List.getD_eq_getElem?_getD, hb, List.getElem?_set_self (by simpa using hlt)]
      have h2 : i % 2 ≠ j % 2 := by omega
      simp only [Option.getD_some]
      generalize bytes.getD (i / 2) 0 = b
      rcases Nat.mod_two_eq_zero_or_one i with hi2 | hi2 <;>
        rcases Nat.mod_two_eq_zero_or_one j with hj2 | hj2 <;>
          simp only [hi2, hj2] at h2 ⊢ <;> first | omega | simp <;> omega
    · rw [List.set_eq_of_length_le (by simpa using hge)]
  · rw [List.getD_eq_getElem?_getD, List.getElem?_set_ne (by omega),
      ← List.getD_eq_getElem?_getD]

theorem u4set_bytes_lt (bytes : List ℕ) (i v : ℕ)
    (hall : ∀ b ∈ bytes, b < 256) : ∀ b ∈ u4set bytes i v, b < 256 := by
  intro b hb
  rcases List.mem_or_eq_of_mem_set hb with hmem | rfl
  · exact hall b hmem
  · have : bytes.getD (i / 2) 0 < 256 := by
      rcases Nat.lt_or_ge (i / 2) bytes.length with hlt | hge
      · rw [List.getD_eq_getElem bytes _ hlt]
        exact hall _ (List.getElem_mem hlt)
      · simp [List.getD_eq_getElem?_getD, List.getElem?_eq_none (by simpa using hge)]
    split <;> omega

/-! ### Claim C7: 4-bit wrapping cell arithmetic -/

/-- Claim C7: the engine's `Increment` and `Decrement` update the current
cell modulo 16: `Increment` maps 15 to 0 and otherwise adds 1 (value
`(c + 1) % 16`), `Decrement` maps 0 to 15 and otherwise subtracts 1 (value
`(c + 15) % 16`), other cells are untouched, and every cell value read from
the tape is in `0..15`. -/
theorem C7_cell_arithmetic_mod16 (p : Program) (st : InnerState) (acc : Bool)
    (seen : List InnerState) (hin : st.headPosition / 2 < st.cells.length) :
    (∀ bytes i, u4get bytes i < 16) ∧
    (p.instructions.get? st.instructionPosition = some .increment →
      ∃ st', engineStep p st acc seen = .next st' acc seen ∧
        st'.instructionPosition = st.instructionPosition + 1 ∧
        u4get st'.cells st.headPosition
          = (u4get st.cells st.headPosition + 1) % 16 ∧
        ∀ j, j ≠ st.headPosition → u4get st'.cells j = u4get st.cells j) ∧
    (p.instructions.get? st.instructionPosition = some .decrement →
      ∃ st', engineStep p st acc seen = .next st' acc seen ∧
        st'.instructionPosition = st.instructionPosition + 1 ∧
        u4get st'.cells st.headPosition
          = (u4get st.cells st.headPosition + 15) % 16 ∧
        ∀ j, j ≠ st.headPosition → u4get st'.cells j = u4get st.cells j) := by
  refine ⟨fun bytes i => u4get_lt_16 bytes i, fun h => ?_, fun h => ?_⟩
  · have hstep : engineStep p st acc seen = .next { st with
        cells := u4set st.cells st.headPosition (u4get st.cells st.headPosition + 1),
        instructionPosition := st.instructionPosition + 1 } acc seen := by
      simp only [engineStep, h]
    exact ⟨_, hstep, rfl, by simp only [u4get_u4set_self _ _ _ hin],
      fun j hj => u4get_u4set_other _ _ _ _ hj⟩
  · have hstep : engineStep p st acc seen = .next { st with
        cells := u4set st.cells st.headPosition
          ((u4get st.cells st.headPosition + 255) % 256),
        instructionPosition := st.instructionPosition + 1 } acc seen := by
      simp only [engineStep, h]
    refine ⟨_, hstep, rfl, ?_, fun j hj => u4get_u4set_other _ _ _ _ hj⟩
    simp only [u4get_u4set_self _ _ _ hin]
    have := u4get_lt_16 st.cells st.headPosition
    omega

/-- Witness for C7 at a concrete configuration: one cell, head 0, a single
`Increment` instruction. -/
theorem C7_cell_arithmetic_mod16_witness :
    (0 : ℕ) / 2 < ([0] : List ℕ).length ∧
    ((∀ bytes i, u4get bytes i < 16) ∧
    ((⟨1, [.increment]⟩ : Program).instructions.get? 0 = some .increment →
      ∃ st', engineStep ⟨1, [.increment]⟩ ⟨[0], 0, 0⟩ false [] = .next st' false [] ∧
        st'.instructionPosition = 0 + 1 ∧
        u4get st'.cells 0 = (u4get [0] 0 + 1) % 16 ∧
        ∀ j, j ≠ 0 → u4get st'.cells j = u4get [0] j) ∧
    ((⟨1, [.increment]⟩ : Program).instructions.get? 0 = some .decrement →
      ∃ st', engineStep ⟨1, [.increment]⟩ ⟨[0], 0, 0⟩ false [] = .next st' false [] ∧
        st'.instructionPosition = 0 + 1 ∧
        u4get st'.cells 0 = (u4get [0] 0 + 15) % 16 ∧
        ∀ j, j ≠ 0 → u4get st'.cells j = u4get [0] j)) :=
  ⟨by norm_num,
    C7_cell_arithmetic_mod16 ⟨1, [.increment]⟩ ⟨[0], 0, 0⟩ false [] (by norm_num)⟩

/-! ### Bracket matching: characterization of the scans -/

/-- The nesting weight used by the backward scan: `]` counts `+1`,
`[` counts `-1`, everything else `0`. -/
def backWeight : Instruction → ℤ
  | .startLoop => -1
  | .endLoop => 1
  | _ => 0

/-- Sum of the backward nesting weights over the positions `lo..hi`
(both included). -/
def nestSum (instrs : List Instruction) (lo hi : ℕ) : ℤ :=
  ∑ k ∈ Finset.Icc lo hi, backWeight (instrs.getD k .moveLeft)

theorem nestSum_self (instrs : List Instruction) (k : ℕ) :
    nestSum instrs k k = backWeight (instrs.getD k .moveLeft) := by
  simp [nestSum]

theorem nestSum_split_hi (instrs : List Instruction) (lo hi : ℕ)
    (h : lo ≤ hi) (h0 : 0 < hi) :
    nestSum instrs lo hi
      = nestSum instrs lo (hi - 1) + backWeight (instrs.getD hi .moveLeft) := by
  rcases Nat.eq_or_lt_of_le h with rfl | hlt
  · have : Finset.Icc lo (lo - 1) = ∅ := by
      rw [Finset.Icc_eq_empty_iff]; omega
    simp [nestSum_self, nestSum, this]
  · have : Finset.Icc lo hi = Finset.Icc lo (hi - 1) ∪ {hi} := by
      ext k; simp only [Finset.mem_Icc, Finset.mem_union, Finset.mem_singleton]; omega
    rw [nestSum, this, Finset.sum_union (by
      simp only [Finset.disjoint_singleton_right, Finset.mem_Icc, not_and, not_le]
      omega)]
    simp [nestSum]

theorem nestSum_split_lo (instrs : List Instruction) (lo hi : ℕ)
    (h : lo < hi) :
    nestSum instrs lo hi
      = backWeight (instrs.getD lo .moveLeft) + nestSum instrs (lo + 1) hi := by
  have : Finset.Icc lo hi = {lo} ∪ Finset.Icc (lo + 1) hi := by
    ext k; simp only [Finset.mem_Icc, Finset.mem_union, Finset.mem_singleton]; omega
  rw [nestSum, this, Finset.sum_union (by
    simp only [Finset.disjoint_singleton_left, Finset.mem_Icc, not_and, not_le]
    omega)]
  simp [nestSum]

/-- Position `s` is the matching `StartLoop` for the `EndLoop` at `e`, in
the sense of the backward scan: `s` holds a `[`, the nesting weights over
`[s, e]` (the `]` at `e` itself included) sum to zero, and no later `[`
position in that interval closes the count. -/
def MatchingStart (instrs : List Instruction) (s e : ℕ) : Prop :=
  s ≤ e ∧ instrs.getD s .moveLeft = .startLoop ∧ nestSum instrs s e = 0 ∧
    ∀ j, s < j → j ≤ e → instrs.getD j .moveLeft = .startLoop →
      nestSum instrs j e ≠ 0

/-- Characterization of the backward scan: it returns `some s` exactly when
`s` is a `[` bringing the running count (started at `n`) to zero, no later
`[` doing so first. -/
theorem scanBack_eq_some_iff (instrs : List Instruction) (ip : ℕ) (n : ℤ)
    (s : ℕ) :
    scanBack instrs ip n = some s ↔
      s ≤ ip ∧ ip < instrs.length ∧ instrs.getD s .moveLeft = .startLoop ∧
      n + nestSum instrs s ip = 0 ∧
      ∀ j, s < j → j ≤ ip → instrs.getD j .moveLeft = .startLoop →
        n + nestSum instrs j ip ≠ 0 := by
  induction ip using Nat.strong_induction_on generalizing n with
  | _ ip IH =>
    rw [scanBack_eq]
    cases hget : instrs.get? ip with
    | none =>
      have hlen : instrs.length ≤ ip := by
        simpa using List.get?_eq_none.mp hget
      constructor
      · intro h; exact absurd h (by simp)
      · rintro ⟨h1, h2, _⟩; omega
    | some i =>
      have hiplen : ip < instrs.length := (List.get?_eq_some.mp hget).1
      have hgetD : instrs.getD ip .moveLeft = i := by
        rw [List.getD_eq_getElem?_getD, ← List.get?_eq_getElem?, hget]; rfl
      have key : ∀ w : ℤ, w = backWeight i →
          (i = .startLoop ∧ n + w = 0 → False) →
          ((if ip = 0 then none else scanBack instrs (ip - 1) (n + w)) = some s ↔
            (s ≤ ip ∧ ip < instrs.length ∧
              instrs.getD s .moveLeft = .startLoop ∧
              n + nestSum instrs s ip = 0 ∧
              ∀ j, s < j → j ≤ ip → instrs.getD j .moveLeft = .startLoop →
                n + nestSum instrs j ip ≠ 0)) := by
        intro w hw hnotbreak
        by_cases hip0 : ip = 0
        · subst hip0
          rw [if_pos rfl]
          constructor
          · intro h; exact absurd h (by simp)
          · rintro ⟨hs, _, hSL, hzero, _⟩
            have hseq : s = 0 := by omega
            subst hseq
            rw [nestSum_self, hgetD] at hzero
            rw [hgetD] at hSL
            exact absurd ⟨hSL, by omega⟩ hnotbreak
        · have hsum : ∀ j, j ≤ ip - 1 →
              n + nestSum instrs j ip = (n + w) + nestSum instrs j (ip - 1) := by
            intro j hj
            rw [nestSum_split_hi instrs j ip (by omega) (by omega), hgetD, ← hw]
            ring
          rw [if_neg hip0, IH (ip - 1) (by omega) (n + w)]
          constructor
          · rintro ⟨hs, _, hSL, hzero, hside⟩
            refine ⟨by omega, hiplen, hSL, ?_, ?_⟩
            · rw [hsum s (by omega)]; exact hzero
            · intro j hj1 hj2 hSLj
              rcases Nat.lt_or_ge j ip with hjlt | hjge
              · rw [hsum j (by omega)]
                exact hside j hj1 (by omega) hSLj
              · have hj : j = ip := by omega
                subst hj
                rw [hgetD] at hSLj
                rw [nestSum_self, hgetD, hSLj]
                intro hcon
                have hwSL : backWeight .startLoop = (-1 : ℤ) := rfl
                rw [hSLj] at hw
                rw [hwSL] at hw hcon
                exact hnotbreak ⟨hSLj, by omega⟩
          · rintro ⟨hs, _, hSL, hzero, hside⟩
            have hsip : s ≠ ip := by
              intro hcon; subst hcon
              rw [hSL] at hgetD
              rw [nestSum_self, hSL] at hzero
              refine hnotbreak ⟨hgetD.symm, ?_⟩
              rw [← hgetD] at hw
              have hwSL : backWeight .startLoop = (-1 : ℤ) := rfl
              rw [hwSL] at hw hzero
              omega
            refine ⟨by omega, by omega, hSL, ?_, ?_⟩
            · rw [← hsum s (by omega)]; exact hzero
            · intro j hj1 hj2 hSLj
              rw [← hsum j (by omega)]
              exact hside j hj1 (by omega) hSLj
      cases i with
      | startLoop =>
        by_cases hbreak : n - 1 = 0
        · rw [if_pos hbreak]
          constructor
          · intro h
            have hs : ip = s := by injection h
            subst hs
            refine ⟨le_refl _, hiplen, hgetD, ?_, ?_⟩
            · rw [nestSum_self, hgetD]
              simp only [backWeight]; omega
            · intro j hj1 hj2 _
              exact absurd hj2 (by omega)
          · rintro ⟨hs, _, hSL, hzero, hside⟩
            rcases Nat.eq_or_lt_of_le hs with rfl | hlt
            · rfl
            · exfalso
              refine hside ip hlt (le_refl _) hgetD ?_
              rw [nestSum_self, hgetD]
              simp only [backWeight]; omega
        · rw [if_neg hbreak]
          have hres := key (-1) (by simp [backWeight]) (by rintro ⟨_, h⟩; omega)
          rw [show n + (-1) = n - 1 by ring] at hres
          exact hres
      | endLoop =>
        exact key 1 (by simp [backWeight]) (by rintro ⟨h, _⟩; exact absurd h (by simp))
      | moveLeft =>
        have hres := key 0 (by simp [backWeight]) (by rintro ⟨h, _⟩; exact absurd h (by simp))
        rw [show n + (0 : ℤ) = n by ring] at hres
        exact hres
      | moveRight =>
        have hres := key 0 (by simp [backWeight]) (by rintro ⟨h, _⟩; exact absurd h (by simp))
        rw [show n + (0 : ℤ) = n by ring] at hres
        exact hres
      | increment =>
        have hres := key 0 (by simp [backWeight]) (by rintro ⟨h, _⟩; exact absurd h (by simp))
        rw [show n + (0 : ℤ) = n by ring] at hres
        exact hres
      | decrement =>
        have hres := key 0 (by simp [backWeight]) (by rintro ⟨h, _⟩; exact absurd h (by simp))
        rw [show n + (0 : ℤ) = n by ring] at hres
        exact hres
      | read =>
        have hres := key 0 (by simp [backWeight]) (by rintro ⟨h, _⟩; exact absurd h (by simp))
        rw [show n + (0 : ℤ) = n by ring] at hres
        exact hres
      | accept =>
        have hres := key 0 (by simp [backWeight]) (by rintro ⟨h, _⟩; exact absurd h (by simp))
        rw [show n + (0 : ℤ) = n by ring] at hres
        exact hres

theorem nestSum_split (instrs : List Instruction) (lo mid hi : ℕ)
    (h1 : lo ≤ mid) (h2 : mid < hi) :
    nestSum instrs lo hi
      = nestSum instrs lo mid + nestSum instrs (mid + 1) hi := by
  have : Finset.Icc lo hi = Finset.Icc lo mid ∪ Finset.Icc (mid + 1) hi := by
    ext k; simp only [Finset.mem_Icc, Finset.mem_union]; omega
  rw [nestSum, this, Finset.sum_union (by
    rw [Finset.disjoint_left]
    intro a ha hb
    simp only [Finset.mem_Icc] at ha hb
    omega)]
  rfl

/-- Characterization of the forward scan: it returns `some e` exactly when
`e` is a `]` bringing the running count (started at `m`, `[` now counting
`+1` and `]` counting `-1`, so the negated backward weights) to zero, no
earlier `]` doing so first. -/
theorem scanForward_eq_some_iff (instrs : List Instruction) (ip : ℕ) (m : ℤ)
    (e : ℕ) :
    scanForward instrs ip m = some e ↔
      ip ≤ e ∧ e < instrs.length ∧ instrs.getD e .moveLeft = .endLoop ∧
      m - nestSum instrs ip e = 0 ∧
      ∀ i, ip ≤ i → i < e → instrs.getD i .moveLeft = .endLoop →
        m - nestSum instrs ip i ≠ 0 := by
  have main : ∀ k ip, instrs.length - ip ≤ k → ∀ (m : ℤ),
      (scanForward instrs ip m = some e ↔
        ip ≤ e ∧ e < instrs.length ∧ instrs.getD e .moveLeft = .endLoop ∧
        m - nestSum instrs ip e = 0 ∧
        ∀ i, ip ≤ i → i < e → instrs.getD i .moveLeft = .endLoop →
          m - nestSum instrs ip i ≠ 0) := by
    intro k
    induction k with
    | zero =>
      intro ip hip m
      rw [scanForward_eq, dif_neg (by omega)]
      constructor
      · intro h; exact absurd h (by simp)
      · rintro ⟨h1, h2, _⟩; omega
    | succ k IHk =>
      intro ip hip m
      by_cases hlen2 : instrs.length ≤ ip
      · rw [scanForward_eq, dif_neg (by omega)]
        constructor
        · intro h; exact absurd h (by simp)
        · rintro ⟨h1, h2, _⟩; omega
      · push_neg at hlen2
        rw [scanForward_eq, dif_pos hlen2]
        simp only []
        have hgetD : instrs.getD ip .moveLeft = instrs[ip] :=
          List.getD_eq_getElem instrs _ hlen2
        generalize hgen : (instrs[ip] : Instruction) = i at hgetD
        have key : ∀ w : ℤ, w = m - backWeight i →
            ¬(i = .endLoop ∧ w = 0) →
            ((if ip + 1 = instrs.length then none
              else scanForward instrs (ip + 1) w) = some e ↔
              (ip ≤ e ∧ e < instrs.length ∧
                instrs.getD e .moveLeft = .endLoop ∧
                m - nestSum instrs ip e = 0 ∧
                ∀ j, ip ≤ j → j < e → instrs.getD j .moveLeft = .endLoop →
                  m - nestSum instrs ip j ≠ 0)) := by
          intro w hwval hnotbreak
          have hnotbreak2 : ¬(i = .endLoop ∧ m - nestSum instrs ip ip = 0) := by
            rw [nestSum_self, hgetD]
            rintro ⟨hEL, hcon⟩
            refine hnotbreak ⟨hEL, ?_⟩
            rw [hwval]
            omega
          by_cases hlast : ip + 1 = instrs.length
          · rw [if_pos hlast]
            constructor
            · intro h; exact absurd h (by simp)
            · rintro ⟨hie, helen, hELe, hzero, hside⟩
              have : e = ip := by omega
              subst this
              exact (hnotbreak2 ⟨hgetD.symm.trans hELe, hzero⟩).elim
          · rw [if_neg hlast]
            rw [IHk (ip + 1) (by omega) w]
            have hsum : ∀ j, ip < j →
                m - nestSum instrs ip j = w - nestSum instrs (ip + 1) j := by
              intro j hj
              rw [nestSum_split_lo instrs ip j hj, hgetD, hwval]
              ring
            constructor
            · rintro ⟨hie, helen, hELe, hzero, hside⟩
              refine ⟨by omega, helen, hELe, ?_, ?_⟩
              · rw [hsum e (by omega)]; exact hzero
              · intro j hj1 hj2 hELj
                rcases Nat.eq_or_lt_of_le hj1 with rfl | hjlt
                · rw [hgetD] at hELj
                  rw [nestSum_self, hgetD]
                  intro hcon
                  exact hnotbreak2 ⟨hELj, by rw [nestSum_self, hgetD]; exact hcon⟩

                · rw [hsum j (by omega)]
                  exact hside j (by omega) hj2 hELj
            · rintro ⟨hie, helen, hELe, hzero, hside⟩
              have heip : e ≠ ip := by
                intro hcon; subst hcon
                exact hnotbreak2 ⟨hgetD.symm.trans hELe, hzero⟩
              refine ⟨by omega, helen, hELe, ?_, ?_⟩
              · rw [← hsum e (by omega)]; exact hzero
              · intro j hj1 hj2 hELj
                rw [← hsum j (by omega)]
                exact hside j (by omega) hj2 hELj
        cases i with
        | endLoop =>
          by_cases hbreak : m - 1 = 0
          · have hcond : (Instruction.endLoop = Instruction.endLoop ∧ m - 1 = 0) :=
              ⟨rfl, hbreak⟩
            rw [if_pos hcond]
            constructor
            · intro h
              have he : ip = e := by injection h
              subst he
              refine ⟨le_refl _, hlen2, hgetD, ?_, ?_⟩
              · rw [nestSum_self, hgetD]
                have hbw : backWeight .endLoop = (1 : ℤ) := rfl
                rw [hbw]; omega
              · intro i2 h1 h2 _
                exact absurd h2 (by omega)
            · rintro ⟨hie, _, hELe, hzero, hside⟩
              rcases Nat.eq_or_lt_of_le hie with rfl | hlt
              · rfl
              · exfalso
                refine hside ip (le_refl _) hlt hgetD ?_
                rw [nestSum_self, hgetD]
                have hbw : backWeight .endLoop = (1 : ℤ) := rfl
                rw [hbw]; omega
          · rw [if_neg (by rintro ⟨_, hcon⟩; exact hbreak hcon)]
            exact key (m - 1)
              (by have hbw : backWeight .endLoop = (1 : ℤ) := rfl; rw [hbw])
              (by rintro ⟨_, hcon⟩; exact hbreak hcon)
        | startLoop =>
          rw [if_neg (by rintro ⟨hcon, _⟩; exact absurd hcon (by simp))]
          exact key (m + 1)
            (by have hbw : backWeight .startLoop = (-1 : ℤ) := rfl; rw [hbw]; ring)
            (by rintro ⟨hcon, _⟩; exact absurd hcon (by simp))
        | moveLeft =>
          rw [if_neg (by rintro ⟨hcon, _⟩; exact absurd hcon (by simp))]
          exact key m
            (by have hbw : backWeight .moveLeft = (0 : ℤ) := rfl; rw [hbw]; ring)
            (by rintro ⟨hcon, _⟩; exact absurd hcon (by simp))
        | moveRight =>
          rw [if_neg (by rintro ⟨hcon, _⟩; exact absurd hcon (by simp))]
          exact key m
            (by have hbw : backWeight .moveRight = (0 : ℤ) := rfl; rw [hbw]; ring)
            (by rintro ⟨hcon, _⟩; exact absurd hcon (by simp))
        | increment =>
          rw [if_neg (by rintro ⟨hcon, _⟩; exact absurd hcon (by simp))]
          exact key m
            (by have hbw : backWeight .increment = (0 : ℤ) := rfl; rw [hbw]; ring)
            (by rintro ⟨hcon, _⟩; exact absurd hcon (by simp))
        | decrement =>
          rw [if_neg (by rintro ⟨hcon, _⟩; exact absurd hcon (by simp))]
          exact key m
            (by have hbw : backWeight .decrement = (0 : ℤ) := rfl; rw [hbw]; ring)
            (by rintro ⟨hcon, _⟩; exact absurd hcon (by simp))
        | read =>
          rw [if_neg (by rintro ⟨hcon, _⟩; exact absurd hcon (by simp))]
          exact key m
            (by have hbw : backWeight .read = (0 : ℤ) := rfl; rw [hbw]; ring)
            (by rintro ⟨hcon, _⟩; exact absurd hcon (by simp))
        | accept =>
          rw [if_neg (by rintro ⟨hcon, _⟩; exact absurd hcon (by simp))]
          exact key m
            (by have hbw : backWeight .accept = (0 : ℤ) := rfl; rw [hbw]; ring)
            (by rintro ⟨hcon, _⟩; exact absurd hcon (by simp))
  exact main (instrs.length - ip) ip (le_refl _) m

/-- Inside a matched bracket pair the backward nesting count stays
positive: if the scan conditions hold for `(s, e)` then every suffix sum
over `(s, e]` is at least 1. -/
theorem nestSum_pos_of_matching (instrs : List Instruction) (s e : ℕ)
    (hEL : instrs.getD e .moveLeft = .endLoop)
    (hzero : nestSum instrs s e = 0)
    (hside : ∀ j, s < j → j ≤ e → instrs.getD j .moveLeft = .startLoop →
      nestSum instrs j e ≠ 0) :
    ∀ j, s < j → j ≤ e → 1 ≤ nestSum instrs j e := by
  have main : ∀ k j, e - j ≤ k → s < j → j ≤ e → 1 ≤ nestSum instrs j e := by
    intro k
    induction k with
    | zero =>
      intro j h1 h2 h3
      have : j = e := by omega
      subst this
      rw [nestSum_self, hEL]
      norm_num [backWeight]
    | succ k IHk =>
      intro j h1 h2 h3
      rcases Nat.eq_or_lt_of_le h3 with rfl | hlt
      · rw [nestSum_self, hEL]
        norm_num [backWeight]
      · have hnext : 1 ≤ nestSum instrs (j + 1) e := IHk (j + 1) (by omega) (by omega) (by omega)
        rw [nestSum_split_lo instrs j e hlt]
        by_cases hSL : instrs.getD j .moveLeft = .startLoop
        · have hne := hside j h2 (by omega) hSL
          rw [nestSum_split_lo instrs j e hlt, hSL] at hne
          have hbw : backWeight .startLoop = (-1 : ℤ) := rfl
          rw [hSL, hbw]
          rw [hbw] at hne
          omega
        · have hge : (0 : ℤ) ≤ backWeight (instrs.getD j .moveLeft) := by
            cases hx : instrs.getD j .moveLeft
            case startLoop => exact absurd hx hSL
            all_goals norm_num [backWeight]
          omega
  exact fun j h1 h2 => main (e - j) j (le_refl _) h1 h2

/-- The two scans match up: if the backward scan from an `EndLoop` at `e`
finds the `StartLoop` at `s`, the forward scan from `s` finds `e` back. -/
theorem scanForward_of_scanBack (instrs : List Instruction) (e s : ℕ)
    (hEL : instrs.getD e .moveLeft = .endLoop)
    (h : scanBack instrs e 0 = some s) :
    scanForward instrs s 0 = some e := by
  rw [scanBack_eq_some_iff] at h
  obtain ⟨hse, helen, hSL, hzero, hside⟩ := h
  rw [zero_add] at hzero
  have hside' : ∀ j, s < j → j ≤ e → instrs.getD j .moveLeft = .startLoop →
      nestSum instrs j e ≠ 0 := by
    intro j h1 h2 h3
    have := hside j h1 h2 h3
    intro hcon; exact this (by rw [hcon]; ring)
  have hpos := nestSum_pos_of_matching instrs s e hEL hzero hside'
  rw [scanForward_eq_some_iff]
  have hsne : s ≠ e := by
    intro hcon; subst hcon
    rw [hSL] at hEL; exact absurd hEL (by simp)
  refine ⟨hse, helen, hEL, by omega, ?_⟩
  intro i h1 h2 hELi
  rcases Nat.eq_or_lt_of_le h1 with rfl | hlt
  · rw [hSL] at hELi; exact absurd hELi (by simp)
  · have hsplit := nestSum_split instrs s i e (by omega) h2
    have := hpos (i + 1) (by omega) (by omega)
    omega

/-! ### Claim C5: `EndLoop` semantics and halting at the edges -/

/-- Claim C5: at an `EndLoop` the engine, regardless of the current cell
value (the configuration is arbitrary), scans backward for the matching
`StartLoop` — nesting counted with the `]` itself included — and resumes
execution at that `StartLoop`; if the rewind runs off the front of the
program the engine returns `⟨none, accepting⟩`, and likewise whenever the
instruction pointer is past the end of the instruction sequence. -/
theorem C5_endloop_rewind_and_halt (p : Program) (st : InnerState)
    (acc : Bool) (seen : List InnerState)
    (h : p.instructions.get? st.instructionPosition = some .endLoop) :
    (∀ s, scanBack p.instructions st.instructionPosition 0 = some s →
      engineStep p st acc seen
          = .next { st with instructionPosition := s } acc seen ∧
        MatchingStart p.instructions s st.instructionPosition) ∧
    (scanBack p.instructions st.instructionPosition 0 = none →
      engineStep p st acc seen = .halted ⟨none, acc⟩) ∧
    (∀ st' : InnerState, p.instructions.get? st'.instructionPosition = none →
      engineStep p st' acc seen = .halted ⟨none, acc⟩) := by
  refine ⟨fun s hscan => ⟨by simp only [engineStep, h, hscan], ?_⟩,
    fun hscan => by simp only [engineStep, h, hscan],
    fun st' hnone => by simp only [engineStep, hnone]⟩
  rw [scanBack_eq_some_iff] at hscan
  obtain ⟨hse, _, hSL, hzero, hside⟩ := hscan
  refine ⟨hse, hSL, by omega, fun j h1 h2 h3 => ?_⟩
  have := hside j h1 h2 h3
  intro hcon
  exact this (by rw [hcon]; ring)

/-- Witness for C5: the program `[]`, configuration at the `]` (cell value
3, so the rewind really is unconditional), rewinds to the `[` at 0. -/
theorem C5_endloop_rewind_and_halt_witness :
    ((⟨1, [.startLoop, .endLoop]⟩ : Program).instructions.get? 1
        = some .endLoop) ∧
    (engineStep ⟨1, [.startLoop, .endLoop]⟩ ⟨[3], 0, 1⟩ false []
        = .next ⟨[3], 0, 0⟩ false [] ∧
      MatchingStart [.startLoop, .endLoop] 0 1) := by
  have h : (⟨1, [.startLoop, .endLoop]⟩ : Program).instructions.get? 1
      = some .endLoop := rfl
  have hscan : scanBack [Instruction.startLoop, Instruction.endLoop] 1 0
      = some 0 := by decide
  have hmain :=
    (C5_endloop_rewind_and_halt ⟨1, [.startLoop, .endLoop]⟩ ⟨[3], 0, 1⟩
      false [] h).1 0 hscan
  exact ⟨h, hmain⟩

/-! ### Claim C4: the worklist update of the refinement loop -/

/-- Hopcroft's worklist rule as the claim states it: if the split class's
id is already on the worklist, the newly created id is added; otherwise the
id of the half with fewer members (the intersection's on ties, matching the
code's tie choice) is added. -/
def hopcroftRule (ev : SplitEvent) : Prop :=
  (ev.part ∈ ev.queueBefore → ev.pushed = ev.freshId) ∧
  (ev.part ∉ ev.queueBefore →
    ev.pushed = if ev.interLen ≤ ev.remLen then ev.interId else ev.remainId)

instance (ev : SplitEvent) : Decidable (hopcroftRule ev) := by
  unfold hopcroftRule; infer_instance

/-- The rule the code actually implements: if the id assigned to the
intersection half is on the worklist, push the remainder's id; otherwise
push the smaller half's id (the intersection's on ties). -/
def actualRule (ev : SplitEvent) : Prop :=
  ev.pushed = if ev.queueBefore.contains ev.interId then ev.remainId
    else if ev.interLen ≤ ev.remLen then ev.interId else ev.remainId

/-- The id bookkeeping of a split: the intersection keeps the class id and
the remainder receives the fresh id when the intersection holds the class
minimum, and vice versa otherwise. -/
def splitShape (ev : SplitEvent) : Prop :=
  (ev.interId = ev.part ∧ ev.remainId = ev.freshId) ∨
  (ev.interId = ev.freshId ∧ ev.remainId = ev.part)

/-- A concrete table on which the refinement loop violates the claimed
rule: class 0 = `{0, 2, 3}` is on the worklist when it is split by the
preimage of the accepting class under input 0 into intersection `{2, 3}`
and remainder `{0}`; the remainder holds the minimum, so the intersection
gets a fresh id, and the code pushes the remainder's id (a duplicate of 0)
instead of the new class id. -/
def C4table : List (Bool × List ℕ) :=
  [(false, List.replicate 16 0),
   (true, List.replicate 16 1),
   (false, 1 :: List.replicate 15 2),
   (false, 1 :: List.replicate 15 3)]

/-- Counterexample to C4: on `C4table` the run performs a split whose class
is on the worklist but whose newly created class id is not pushed. -/
theorem C4_counterexample :
    ∃ res, minimizeTable C4table 40 = some res ∧
      ∃ ev ∈ res.2, ev.part ∈ ev.queueBefore ∧ ¬hopcroftRule ev := by decide

/-- Every split event records the worklist update the code performs
(`actualRule`) and the id assignment of the halves (`splitShape`). -/
theorem splitStep_events (n : ℕ) (pre : List ℕ) (σ : MinState) (part : ℕ) :
    (splitStep n pre σ part).events = σ.events ∨
    ∃ ev, (splitStep n pre σ part).events = σ.events ++ [ev]
      ∧ actualRule ev ∧ splitShape ev := by
  simp only [splitStep]
  split
  · left; rfl
  · split
    all_goals right
    all_goals exact ⟨_, rfl, rfl, by simp [splitShape]⟩

/-- Events only accumulate through the refinement loop, each satisfying the
implemented worklist rule. -/
theorem minimizeLoop_events (states : List (Bool × List ℕ)) (fuel : ℕ)
    (σ σF : MinState)
    (hσ : ∀ e ∈ σ.events, actualRule e ∧ splitShape e)
    (h : minimizeLoop states fuel σ = some σF) :
    ∀ e ∈ σF.events, actualRule e ∧ splitShape e := by
  have foldlPreserve : ∀ {α β : Type} (P : β → Prop) (f : β → α → β)
      (l : List α) (init : β), (∀ b a, P b → P (f b a)) → P init →
      P (l.foldl f init) := by
    intro α β P f l
    induction l with
    | nil => exact fun init _ h0 => h0
    | cons x xs IH => exact fun init hf h0 => IH (f init x) hf (hf init x h0)
  have hsplit : ∀ (n : ℕ) (pre : List ℕ) (σ2 : MinState) (part : ℕ),
      (∀ e ∈ σ2.events, actualRule e ∧ splitShape e) →
      ∀ e ∈ (splitStep n pre σ2 part).events, actualRule e ∧ splitShape e := by
    intro n pre σ2 part hσ2 e he
    rcases splitStep_events n pre σ2 part with heq | ⟨ev, heq, hrule, hshape⟩
    · rw [heq] at he; exact hσ2 e he
    · rw [heq] at he
      simp only [List.mem_append, List.mem_singleton] at he
      rcases he with he | rfl
      · exact hσ2 e he
      · exact ⟨hrule, hshape⟩
  induction fuel generalizing σ with
  | zero => exact absurd h (by simp [minimizeLoop])
  | succ fuel IH =>
    rw [minimizeLoop] at h
    rcases hq : σ.queue with _ | ⟨current, queue2⟩
    · rw [hq] at h
      simp only [Option.some.injEq] at h
      rw [← h]; exact hσ
    · rw [hq] at h
      refine IH _ ?_ h
      refine foldlPreserve
        (fun σ2 : MinState => ∀ e ∈ σ2.events, actualRule e ∧ splitShape e)
        _ _ _ ?_ hσ
      intro σ2 input hσ2
      rw [passStep]
      exact foldlPreserve
        (fun σ3 : MinState => ∀ e ∈ σ3.events, actualRule e ∧ splitShape e)
        _ _ _ (fun σ3 part hσ3 => hsplit _ _ σ3 part hσ3) hσ2

/-- Amended C4: at every split the worklist is updated by the rule the code
implements — if the id assigned to the intersection half is already on the
worklist then the remainder's id is pushed, otherwise the smaller half's id
(the intersection's on ties) — where the intersection keeps `P`'s id
exactly when it contains the class minimum and otherwise receives the fresh
id. -/
theorem C4_amended_worklist_update (states : List (Bool × List ℕ))
    (fuel : ℕ) (res : List (Bool × List ℕ) × List SplitEvent)
    (h : minimizeTable states fuel = some res) :
    ∀ ev ∈ res.2, actualRule ev ∧ splitShape ev := by
  simp only [minimizeTable] at h
  split at h
  · exact absurd h (by simp)
  · rename_i σF heq
    simp only [Option.some.injEq] at h
    have hres2 : res.2 = σF.events := by rw [← h]
    rw [hres2]
    exact minimizeLoop_events states fuel _ σF (by simp) heq

/-- Witness for the amended C4 on `C4table`. -/
theorem C4_amended_worklist_update_witness :
    ∃ res, minimizeTable C4table 40 = some res ∧
      ∀ ev ∈ res.2, actualRule ev ∧ splitShape ev := by
  rcases hres : minimizeTable C4table 40 with _ | res
  · exact absurd hres (by decide)
  · exact ⟨res, rfl, C4_amended_worklist_update C4table 40 res hres⟩

/-! ### C10: interned configurations sit just past a `Read` -/

/-- An inner configuration whose instruction pointer is immediately after a
`Read`: `1 ≤ ip ≤ |instructions|` and the instruction at `ip - 1` is `Read`. -/
def afterReadPos (p : Program) (st : InnerState) : Prop :=
  1 ≤ st.instructionPosition ∧
  st.instructionPosition ≤ p.instructions.length ∧
  p.instructions.get? (st.instructionPosition - 1) = some .read

/-- The only `halted` outcome of a step with `inner = some` is the `Read`
branch, which positions the pointer just past the `Read`. -/
theorem engineStep_halted_inner (p : Program) (st : InnerState) (acc : Bool)
    (seen : List InnerState) (d : DfaState) (st' : InnerState)
    (h : engineStep p st acc seen = .halted d) (hd : d.inner = some st') :
    afterReadPos p st' := by
  rcases hget : p.instructions.get? st.instructionPosition with _ | instr
  · simp only [engineStep, hget] at h
    cases h
    simp at hd
  · cases instr
    all_goals simp only [engineStep, hget] at h
    case moveLeft => exact StepResult.noConfusion h
    case moveRight => exact StepResult.noConfusion h
    case increment => exact StepResult.noConfusion h
    case decrement => exact StepResult.noConfusion h
    case accept => exact StepResult.noConfusion h
    case endLoop =>
      rcases hsb : scanBack p.instructions st.instructionPosition 0 with _ | s
      all_goals simp only [hsb] at h
      · cases h; simp at hd
      · exact StepResult.noConfusion h
    case startLoop =>
      split at h
      · rcases hsf : scanForward p.instructions st.instructionPosition 0 with _ | e
        all_goals simp only [hsf] at h
        · cases h; simp at hd
        · exact StepResult.noConfusion h
      · split at h
        · cases h; simp at hd
        · exact StepResult.noConfusion h
    case read =>
      cases h
      obtain rfl : st' =
          { st with instructionPosition := st.instructionPosition + 1 } :=
        (Option.some_inj.mp hd).symm
      have hlt : st.instructionPosition < p.instructions.length := by
        rcases List.get?_eq_some.mp hget with ⟨h1, _⟩
        exact h1
      exact ⟨Nat.succ_le_succ (Nat.zero_le _), hlt, by simpa using hget⟩

/-- Lifted to the engine loop: a returned state with `inner = some` is after
a `Read`. -/
theorem runLoop_inner_read (p : Program) (fuel : ℕ) (st : InnerState)
    (acc : Bool) (seen : List InnerState) (d : DfaState) (st' : InnerState)
    (h : runLoop p fuel st acc seen = some d) (hd : d.inner = some st') :
    afterReadPos p st' := by
  induction fuel generalizing st acc seen with
  | zero => exact absurd h (by simp [runLoop])
  | succ fuel IH =>
    rw [runLoop] at h
    rcases hstep : engineStep p st acc seen with r | ⟨st2, acc2, seen2⟩
    · rw [hstep] at h
      simp only [Option.some.injEq] at h
      subst h
      exact engineStep_halted_inner p st acc seen _ st' hstep hd
    · rw [hstep] at h
      exact IH st2 acc2 seen2 h

/-- `run_with_next_input` returns `inner = some` only through the `Read`
branch. -/
theorem run_inner_read (p : Program) (efuel : ℕ) (st : InnerState)
    (input : ℕ) (d : DfaState) (st' : InnerState)
    (h : run_with_next_input p efuel st input = some d)
    (hd : d.inner = some st') : afterReadPos p st' :=
  runLoop_inner_read p efuel _ false [] d st' h hd

/-- Generic foldl invariant preservation. -/
theorem foldl_preserve {α β : Type} (P : β → Prop) (f : β → α → β)
    (l : List α) (init : β) (hf : ∀ b a, P b → P (f b a)) (h0 : P init) :
    P (l.foldl f init) := by
  induction l generalizing init with
  | nil => exact h0
  | cons x xs IH => exact IH (f init x) (hf init x h0)

/-- `buildInput` only interns engine results, so every new key with
`inner = some` is after a `Read`. -/
theorem buildInput_ids (p : Program) (efuel : ℕ) (inner : InnerState)
    (curId : ℕ)
    (acc : Option (List (DfaState × ℕ) × List (Bool × List ℕ) × List DfaState))
    (input : ℕ) (ids' : List (DfaState × ℕ)) (table' : List (Bool × List ℕ))
    (stack' : List DfaState)
    (hacc : ∀ ids table stack, acc = some (ids, table, stack) →
      ∀ x ∈ ids, ∀ st2, x.1.inner = some st2 → afterReadPos p st2)
    (h : buildInput p efuel inner curId acc input = some (ids', table', stack')) :
    ∀ x ∈ ids', ∀ st2, x.1.inner = some st2 → afterReadPos p st2 := by
  rcases acc with _ | ⟨ids, table, stack⟩
  · simp [buildInput] at h
  · simp only [buildInput] at h
    rcases hrun : run_with_next_input p efuel inner input with _ | next
    · rw [hrun] at h
      exact Option.noConfusion h
    · rw [hrun] at h
      rcases hlook : ids.lookup next with _ | i
      all_goals simp only [hlook, Option.some.injEq, Prod.mk.injEq] at h
      · obtain ⟨h1, h2, h3⟩ := h
        subst h1
        intro x hx st2 hst2
        rcases List.mem_cons.mp hx with rfl | hx2
        · exact run_inner_read p efuel inner input next st2 hrun hst2
        · exact hacc ids table stack rfl x hx2 st2 hst2
      · obtain ⟨h1, h2, h3⟩ := h
        subst h1
        exact hacc ids table stack rfl

set_option maxHeartbeats 2000000 in
/-- The exploration loop never interns a configuration state that is not an
engine result: all keys with `inner = some` are after a `Read`. -/
theorem buildLoop_ids (p : Program) (efuel fuel : ℕ)
    (ids : List (DfaState × ℕ)) (table : List (Bool × List ℕ))
    (stack : List DfaState) (idsF : List (DfaState × ℕ))
    (tableF : List (Bool × List ℕ))
    (hids : ∀ x ∈ ids, ∀ st2, x.1.inner = some st2 → afterReadPos p st2)
    (h : buildLoop p efuel fuel ids table stack = some (idsF, tableF)) :
    ∀ x ∈ idsF, ∀ st2, x.1.inner = some st2 → afterReadPos p st2 := by
  induction fuel generalizing ids table stack with
  | zero => simp only [buildLoop] at h; exact Option.noConfusion h
  | succ fuel IH =>
    simp only [buildLoop] at h
    cases stack with
    | nil =>
      simp only [Option.some.injEq, Prod.mk.injEq] at h
      obtain ⟨h1, h2⟩ := h
      subst h1
      exact hids
    | cons current stack2 =>
      rcases hinner : current.inner with _ | inner
      · simp only [hinner] at h
        exact IH ids _ stack2 hids h
      · simp only [hinner] at h
        rcases hfold : (List.range 16).foldl
            (buildInput p efuel inner ((ids.lookup current).getD 0))
            (some (ids, table, stack2)) with _ | res
        · rw [hfold] at h
          exact Option.noConfusion h
        · rcases res with ⟨ids2, table2, stack3⟩
          rw [hfold] at h
          have hinv := foldl_preserve
            (fun acc => ∀ idsA tableA stackA, acc = some (idsA, tableA, stackA) →
              ∀ x ∈ idsA, ∀ st2, x.1.inner = some st2 → afterReadPos p st2)
            (buildInput p efuel inner ((ids.lookup current).getD 0))
            (List.range 16) (some (ids, table, stack2))
            (by
              intro acc input hQa idsA tableA stackA hEq
              exact buildInput_ids p efuel inner _ acc input
                idsA tableA stackA hQa hEq)
            (by
              intro idsA tableA stackA hEq
              simp only [Option.some.injEq, Prod.mk.injEq] at hEq
              obtain ⟨h1, h2, h3⟩ := hEq
              subst h1
              exact hids)
          exact IH ids2 table2 stack3 (hinv ids2 table2 stack3 hfold) h

/-- C10: every DFA state that `build` interns whose `inner` holds a
configuration has its instruction pointer immediately after a `Read`:
`1 ≤ ip ≤ |instructions|` and the instruction at `ip - 1` is `Read` (the
start state included); an `inner = some` state only arises from the
engine's `Read` branch. -/
theorem C10_after_read (p : Program) (efuel fuel : ℕ)
    (res : List (DfaState × ℕ) × List (Bool × List ℕ))
    (h : buildTable p efuel fuel = some res) :
    ∀ x ∈ res.1, ∀ st2, x.1.inner = some st2 →
      1 ≤ st2.instructionPosition ∧
      st2.instructionPosition ≤ p.instructions.length ∧
      p.instructions.get? (st2.instructionPosition - 1) = some .read := by
  simp only [buildTable] at h
  rcases hrun : run_with_next_input p efuel
      ⟨List.replicate ((p.cellCount + 1) / 2) 0, 0, 0⟩ 0 with _ | start
  · rw [hrun] at h
    exact Option.noConfusion h
  · rw [hrun] at h
    have hstart : ∀ x ∈ [((start : DfaState), (0 : ℕ))], ∀ st2,
        x.1.inner = some st2 → afterReadPos p st2 := by
      intro x hx st2 hst2
      rcases List.mem_singleton.mp hx with rfl
      exact run_inner_read p efuel _ 0 start st2 hrun hst2
    exact buildLoop_ids p efuel fuel [(start, 0)]
      [(start.accepting, List.replicate 16 0)] [start] res.1 res.2 hstart h

/-- Witness for C10 on the one-instruction program `,`. -/
theorem C10_after_read_witness :
    ∃ res, buildTable ⟨1, [.read]⟩ 3 3 = some res ∧
      ∀ x ∈ res.1, ∀ st2, x.1.inner = some st2 →
        1 ≤ st2.instructionPosition ∧
        st2.instructionPosition ≤ ([Instruction.read] : List Instruction).length ∧
        ([Instruction.read] : List Instruction).get? (st2.instructionPosition - 1)
          = some .read := by
  rcases hres : buildTable ⟨1, [.read]⟩ 3 3 with _ | res
  · exact absurd hres (by decide)
  · exact ⟨res, rfl, C10_after_read ⟨1, [.read]⟩ 3 3 res hres⟩

/-! ### C6: sink rows self-loop; transitions stay in range -/

/-- A lookup hit is a binding of the association list. -/
theorem lookup_some_mem {α β : Type} [DecidableEq α] {l : List (α × β)}
    {a : α} {b : β} (h : l.lookup a = some b) : (a, b) ∈ l := by
  induction l with
  | nil => exact absurd h (by simp [List.lookup])
  | cons x t IH =>
    rcases x with ⟨k, v⟩
    rw [List.lookup] at h
    rcases hbeq : (a == k) with _ | _
    · rw [hbeq] at h
      exact List.mem_cons_of_mem _ (IH h)
    · rw [hbeq] at h
      simp only [Option.some.injEq] at h
      subst h
      have hak : a = k := by simpa using hbeq
      subst hak
      exact List.mem_cons_self _ _

/-- A lookup miss means the key is unbound. -/
theorem lookup_none_not_mem {α β : Type} [DecidableEq α] {l : List (α × β)}
    {a : α} (h : l.lookup a = none) (b : β) : (a, b) ∉ l := by
  induction l with
  | nil => simp
  | cons x t IH =>
    rcases x with ⟨k, v⟩
    rw [List.lookup] at h
    rcases hbeq : (a == k) with _ | _
    · rw [hbeq] at h
      intro hmem
      rcases List.mem_cons.mp hmem with heq | hmem2
      · have hak : a = k := congrArg Prod.fst heq
        rw [← hak] at hbeq
        simp at hbeq
      · exact IH h hmem2
    · rw [hbeq] at h
      exact Option.noConfusion h

/-- With distinct keys, every binding is found by lookup. -/
theorem mem_lookup_of_nodup {α β : Type} [DecidableEq α] {l : List (α × β)}
    (hnd : (l.map Prod.fst).Nodup) {a : α} {b : β} (h : (a, b) ∈ l) :
    l.lookup a = some b := by
  induction l with
  | nil => simp at h
  | cons x t IH =>
    rcases x with ⟨k, v⟩
    rw [List.lookup]
    rcases List.mem_cons.mp h with heq | hmem2
    · have h1 : a = k := congrArg Prod.fst heq
      have h2 : b = v := congrArg Prod.snd heq
      subst h1
      subst h2
      simp
    · have hk : a ≠ k := by
        intro heq2
        subst heq2
        have hmm : a ∈ t.map Prod.fst := List.mem_map_of_mem Prod.fst hmem2
        simp only [List.map_cons, List.nodup_cons] at hnd
        exact hnd.1 hmm
      have hbeq : (a == k) = false := beq_eq_false_iff_ne.mpr hk
      rw [hbeq]
      exact IH (by simp only [List.map_cons, List.nodup_cons] at hnd; exact hnd.2) hmem2

/-- Invariant of the exploration loop: the table is non-empty, interned ids
are in range, keys and ids are distinct, stacked states are interned, all
transitions are in range, and every interned sink no longer awaiting
exploration already carries its self-looping row. -/
def BuildInv (ids : List (DfaState × ℕ)) (table : List (Bool × List ℕ))
    (stack : List DfaState) : Prop :=
  0 < table.length ∧
  (∀ x ∈ ids, x.2 < table.length) ∧
  (ids.map Prod.fst).Nodup ∧
  (ids.map Prod.snd).Nodup ∧
  (∀ d ∈ stack, ∃ i, (d, i) ∈ ids) ∧
  (∀ row ∈ table, ∀ t ∈ row.2, t < table.length) ∧
  (∀ x ∈ ids, x.1.inner = none → x.1 ∉ stack →
    table.getD x.2 default = (x.1.accepting, List.replicate 16 x.2))

/-- `buildInput` preserves the exploration invariant when the written row
belongs to a non-sink state. -/
theorem buildInput_inv (p : Program) (efuel : ℕ) (inner : InnerState)
    (curId : ℕ)
    (acc : Option (List (DfaState × ℕ) × List (Bool × List ℕ) × List DfaState))
    (input : ℕ) (ids' : List (DfaState × ℕ)) (table' : List (Bool × List ℕ))
    (stack' : List DfaState) (dc : DfaState) (hdc : dc.inner ≠ none)
    (hacc : ∀ ids table stack, acc = some (ids, table, stack) →
      BuildInv ids table stack ∧ (dc, curId) ∈ ids)
    (h : buildInput p efuel inner curId acc input = some (ids', table', stack')) :
    BuildInv ids' table' stack' ∧ (dc, curId) ∈ ids' := by
  rcases acc with _ | ⟨ids, table, stack⟩
  · simp [buildInput] at h
  · obtain ⟨⟨hA, hB, hC, hD, hE, hG, hH⟩, hdcm⟩ := hacc ids table stack rfl
    simp only [buildInput] at h
    rcases hrun : run_with_next_input p efuel inner input with _ | next
    · rw [hrun] at h
      exact Option.noConfusion h
    · rw [hrun] at h
      have hcur : curId < table.length := hB (dc, curId) hdcm
      rcases hlook : ids.lookup next with _ | i
      all_goals simp only [hlook, Option.some.injEq, Prod.mk.injEq] at h
      · obtain ⟨h1, h2, h3⟩ := h
        subst h1
        subst h2
        subst h3
        have hGM : ∀ row2 ∈ table ++ [(next.accepting, List.replicate 16 0)],
            ∀ t ∈ row2.2, t < table.length + 1 := by
          intro row2 hrow2 t ht
          rcases List.mem_append.mp hrow2 with hm | hm
          · exact Nat.lt_succ_of_lt (hG row2 hm t ht)
          · rcases List.mem_singleton.mp hm with rfl
            have ht0 : t = 0 := List.eq_of_mem_replicate ht
            omega
        refine ⟨⟨?_, ?_, ?_, ?_, ?_, ?_, ?_⟩,
          List.mem_cons_of_mem _ hdcm⟩
        · simp
        · intro x hx
          rcases List.mem_cons.mp hx with rfl | hx2
          · simp
          · have := hB x hx2
            simp only [List.length_set, List.length_append,
              List.length_singleton]
            omega
        · simp only [List.map_cons, List.nodup_cons]
          refine ⟨?_, hC⟩
          intro hmem
          rcases List.mem_map.mp hmem with ⟨y, hy, hfst⟩
          rcases y with ⟨yk, yv⟩
          exact lookup_none_not_mem hlook yv (by rw [show yk = next from hfst] at hy; exact hy)
        · simp only [List.map_cons, List.nodup_cons]
          refine ⟨?_, hD⟩
          intro hmem
          rcases List.mem_map.mp hmem with ⟨y, hy, hsnd⟩
          have := hB y hy
          omega
        · intro d hd
          rcases List.mem_cons.mp hd with rfl | hd2
          · exact ⟨table.length, List.mem_cons_self _ _⟩
          · rcases hE d hd2 with ⟨j, hj⟩
            exact ⟨j, List.mem_cons_of_mem _ hj⟩
        · intro row2 hrow2 t ht
          simp only [List.length_set, List.length_append, List.length_singleton]
          rcases List.mem_or_eq_of_mem_set hrow2 with hm | rfl
          · exact hGM row2 hm t ht
          · rcases List.mem_or_eq_of_mem_set ht with ht2 | rfl
            · have hcurM : curId <
                  (table ++ [(next.accepting, List.replicate 16 0)]).length := by
                simp only [List.length_append, List.length_singleton]
                omega
              have hrowmem :
                  (table ++ [(next.accepting, List.replicate 16 0)]).getD curId
                    (false, []) ∈ table ++ [(next.accepting, List.replicate 16 0)] := by
                rw [List.getD_eq_getElem _ _ hcurM]
                exact List.getElem_mem hcurM
              exact hGM _ hrowmem t ht2
            · omega
        · intro x hx hxn hxs
          rcases List.mem_cons.mp hx with rfl | hx2
          · exact (hxs (List.mem_cons_self next stack)).elim
          · have hxnotstack : x.1 ∉ stack := by
              intro hmem
              exact hxs (List.mem_cons_of_mem _ hmem)
            have hxne : x ≠ (dc, curId) := by
              intro heq
              rw [heq] at hxn
              exact hdc hxn
            have hne2 : x.2 ≠ curId := by
              intro h2
              exact hxne (List.inj_on_of_nodup_map hD hx2 hdcm h2)
            rw [List.getD_eq_getElem?_getD, List.getElem?_set_ne (Ne.symm hne2),
              ← List.getD_eq_getElem?_getD,
              List.getD_append _ _ _ _ (hB x hx2)]
            exact hH x hx2 hxn hxnotstack
      · obtain ⟨h1, h2, h3⟩ := h
        subst h1
        subst h2
        subst h3
        refine ⟨⟨?_, ?_, hC, hD, hE, ?_, ?_⟩, hdcm⟩
        · simpa using hA
        · intro x hx
          have := hB x hx
          simpa using this
        · intro row2 hrow2 t ht
          simp only [List.length_set]
          rcases List.mem_or_eq_of_mem_set hrow2 with hm | rfl
          · exact hG row2 hm t ht
          · rcases List.mem_or_eq_of_mem_set ht with ht2 | rfl
            · have hrowmem : table.getD curId (false, []) ∈ table := by
                rw [List.getD_eq_getElem _ _ hcur]
                exact List.getElem_mem hcur
              exact hG _ hrowmem t ht2
            · exact hB (next, t) (lookup_some_mem hlook)
        · intro x hx hxn hxs
          have hxne : x ≠ (dc, curId) := by
            intro heq
            rw [heq] at hxn
            exact hdc hxn
          have hne2 : x.2 ≠ curId := by
            intro h2
            exact hxne (List.inj_on_of_nodup_map hD hx hdcm h2)
          rw [List.getD_eq_getElem?_getD, List.getElem?_set_ne (Ne.symm hne2),
            ← List.getD_eq_getElem?_getD]
          exact hH x hx hxn hxs

set_option maxHeartbeats 2000000 in
/-- The exploration loop, started in an invariant state, drains the stack and
yields a table whose interned sinks self-loop and whose transitions are all
in range. -/
theorem buildLoop_inv (p : Program) (efuel fuel : ℕ)
    (ids : List (DfaState × ℕ)) (table : List (Bool × List ℕ))
    (stack : List DfaState) (idsF : List (DfaState × ℕ))
    (tableF : List (Bool × List ℕ))
    (hinv : BuildInv ids table stack)
    (h : buildLoop p efuel fuel ids table stack = some (idsF, tableF)) :
    (∀ x ∈ idsF, x.1.inner = none →
      tableF.getD x.2 default = (x.1.accepting, List.replicate 16 x.2)) ∧
    ∀ row ∈ tableF, ∀ t ∈ row.2, t < tableF.length := by
  induction fuel generalizing ids table stack with
  | zero => simp only [buildLoop] at h; exact Option.noConfusion h
  | succ fuel IH =>
    simp only [buildLoop] at h
    cases stack with
    | nil =>
      obtain ⟨hA, hB, hC, hD, hE, hG, hH⟩ := hinv
      simp only [Option.some.injEq, Prod.mk.injEq] at h
      obtain ⟨h1, h2⟩ := h
      subst h1
      subst h2
      exact ⟨fun x hx hxn => hH x hx hxn (by simp), hG⟩
    | cons current stack2 =>
      obtain ⟨hA, hB, hC, hD, hE, hG, hH⟩ := hinv
      rcases hE current (List.mem_cons_self _ _) with ⟨i, hi⟩
      have hlookc : ids.lookup current = some i := mem_lookup_of_nodup hC hi
      have hilt : i < table.length := hB (current, i) hi
      simp only [hlookc, Option.getD_some] at h
      rcases hinner : current.inner with _ | inner
      · simp only [hinner] at h
        refine IH ids _ stack2 ⟨?_, ?_, hC, hD, ?_, ?_, ?_⟩ h
        · simpa using hA
        · intro x hx
          simpa using hB x hx
        · intro d hd
          exact hE d (List.mem_cons_of_mem _ hd)
        · intro row2 hrow2 t ht
          simp only [List.length_set]
          rcases List.mem_or_eq_of_mem_set hrow2 with hm | rfl
          · exact hG row2 hm t ht
          · rcases List.eq_of_mem_replicate ht with rfl
            exact hilt
        · intro x hx hxn hxs2
          by_cases hxc : x.1 = current
          · have hxeq : x = (current, i) :=
              List.inj_on_of_nodup_map hC hx hi hxc
            rw [hxeq, List.getD_eq_getElem?_getD, List.getElem?_set_self hilt]
            simp only [Option.getD_some]
          · have hxnotstack : x.1 ∉ current :: stack2 := by
              intro hmem
              rcases List.mem_cons.mp hmem with heq | hmem2
              · exact hxc heq
              · exact hxs2 hmem2
            have hne2 : x.2 ≠ i := by
              intro h2
              exact hxc (congrArg Prod.fst
                (List.inj_on_of_nodup_map hD hx hi h2))
            rw [List.getD_eq_getElem?_getD, List.getElem?_set_ne (Ne.symm hne2),
              ← List.getD_eq_getElem?_getD]
            exact hH x hx hxn hxnotstack
      · simp only [hinner] at h
        rcases hfold : (List.range 16).foldl (buildInput p efuel inner i)
            (some (ids, table, stack2)) with _ | res
        · rw [hfold] at h
          exact Option.noConfusion h
        · rcases res with ⟨ids2, table2, stack3⟩
          rw [hfold] at h
          have hdc : current.inner ≠ none := by rw [hinner]; simp
          have hinit : BuildInv ids table stack2 ∧ (current, i) ∈ ids := by
            refine ⟨⟨hA, hB, hC, hD, ?_, hG, ?_⟩, hi⟩
            · intro d hd
              exact hE d (List.mem_cons_of_mem _ hd)
            · intro x hx hxn hxs2
              refine hH x hx hxn ?_
              intro hmem
              rcases List.mem_cons.mp hmem with heq | hmem2
              · rw [heq] at hxn
                rw [hinner] at hxn
                exact Option.noConfusion hxn
              · exact hxs2 hmem2
          have hinv2 := foldl_preserve
            (fun acc => ∀ idsA tableA stackA, acc = some (idsA, tableA, stackA) →
              BuildInv idsA tableA stackA ∧ (current, i) ∈ idsA)
            (buildInput p efuel inner i) (List.range 16)
            (some (ids, table, stack2))
            (by
              intro acc input hQa idsA tableA stackA hEq
              exact buildInput_inv p efuel inner i acc input
                idsA tableA stackA current hdc hQa hEq)
            (by
              intro idsA tableA stackA hEq
              simp only [Option.some.injEq, Prod.mk.injEq] at hEq
              obtain ⟨h1, h2, h3⟩ := hEq
              subst h1
              subst h2
              subst h3
              exact hinit)
          exact IH ids2 table2 stack3
            (hinv2 ids2 table2 stack3 hfold).1 h

/-- C6: in the table `build` returns, the row of every interned sink state
(`inner = none`) is its accepting flag together with 16 transitions to its
own index, and every transition of every row is a valid row index. -/
theorem C6_sink_rows_and_bounds (p : Program) (efuel fuel : ℕ)
    (res : List (DfaState × ℕ) × List (Bool × List ℕ))
    (h : buildTable p efuel fuel = some res) :
    (∀ x ∈ res.1, x.1.inner = none →
      res.2.getD x.2 default = (x.1.accepting, List.replicate 16 x.2)) ∧
    ∀ row ∈ res.2, ∀ t ∈ row.2, t < res.2.length := by
  simp only [buildTable] at h
  rcases hrun : run_with_next_input p efuel
      ⟨List.replicate ((p.cellCount + 1) / 2) 0, 0, 0⟩ 0 with _ | start
  · rw [hrun] at h
    exact Option.noConfusion h
  · rw [hrun] at h
    refine buildLoop_inv p efuel fuel [(start, 0)]
      [(start.accepting, List.replicate 16 0)] [start] res.1 res.2
      ⟨?_, ?_, ?_, ?_, ?_, ?_, ?_⟩ h
    · simp
    · intro x hx
      rcases List.mem_singleton.mp hx with rfl
      simp
    · simp
    · simp
    · intro d hd
      rcases List.mem_singleton.mp hd with rfl
      exact ⟨0, List.mem_singleton.mpr rfl⟩
    · intro row hrow t ht
      rcases List.mem_singleton.mp hrow with rfl
      rcases List.eq_of_mem_replicate ht with rfl
      simp
    · intro x hx hxn hxs
      rcases List.mem_singleton.mp hx with rfl
      exact absurd (List.mem_singleton.mpr rfl) hxs

/-- Witness for C6 on the one-instruction program `,`. -/
theorem C6_sink_rows_and_bounds_witness :
    ∃ res, buildTable ⟨1, [.read]⟩ 3 3 = some res ∧
      ((∀ x ∈ res.1, x.1.inner = none →
        res.2.getD x.2 default = (x.1.accepting, List.replicate 16 x.2)) ∧
      ∀ row ∈ res.2, ∀ t ∈ row.2, t < res.2.length) := by
  rcases hres : buildTable ⟨1, [.read]⟩ 3 3 with _ | res
  · exact absurd hres (by decide)
  · exact ⟨res, rfl, C6_sink_rows_and_bounds ⟨1, [.read]⟩ 3 3 res hres⟩

/-! ### C8: edge labels are maximal runs -/

/-- The rendering of one maximal run `[r.1, r.2)`: fewer than four members
are written as their digits, four or more as `START-END` where `END` is the
last included input. -/
def runRender (r : ℕ × ℕ) : String :=
  if r.2 - r.1 < 4 then
    String.mk ((List.range (r.2 - r.1)).map (fun j => hexChar (r.1 + j)))
  else String.mk [hexChar r.1] ++ "-" ++ String.mk [hexChar (r.2 - 1)]

/-- Concatenation of run renderings, with no separators. -/
def labelOf : List (ℕ × ℕ) → String
  | [] => ""
  | r :: rs => runRender r ++ labelOf rs

/-- The maximal-run decomposition of the positions of `l` (offset by `k`)
whose entry equals `toId`, with `op` an open run carried in from the left. -/
def runsAux (toId : ℕ) : List ℕ → ℕ → Option ℕ → List (ℕ × ℕ)
  | [], k, none => []
  | [], k, some s => [(s, k)]
  | x :: xs, k, op =>
    if x = toId then
      match op with
      | none => runsAux toId xs (k + 1) (some k)
      | some s => runsAux toId xs (k + 1) (some s)
    else
      match op with
      | none => runsAux toId xs (k + 1) none
      | some s => (s, k) :: runsAux toId xs (k + 1) none

/-- The edge fold followed by the closing `end_run` writes exactly the
renderings of the maximal runs, preceded by the edge header if any run
exists. -/
theorem edgeFold_runs (fromId toId : ℕ) (l : List ℕ) :
    ∀ (k : ℕ) (op : Option ℕ) (e : Bool) (str : String),
    endRun fromId toId
      ((l.enumFrom k).foldl (edgeFold fromId toId) (op, (e, str))).2
      ((l.enumFrom k).foldl (edgeFold fromId toId) (op, (e, str))).1
      (k + l.length) =
    (if runsAux toId l k op = [] then (e, str)
     else (false,
       (if e then str ++ "    " ++ toString fromId ++ " -> "
         ++ toString toId ++ " [label=\"" else str)
       ++ labelOf (runsAux toId l k op))) := by
  induction l with
  | nil =>
    intro k op e str
    rcases op with _ | s
    · cases e <;> simp [runsAux, endRun]
    · cases e <;>
        simp [runsAux, endRun, labelOf, runRender, String.append_empty] <;>
        split <;> simp [String.append_assoc]
  | cons x xs IH =>
    intro k op e str
    have hlen : k + (x :: xs).length = (k + 1) + xs.length := by
      simp [List.length_cons]
      omega
    rw [hlen]
    by_cases hx : x = toId
    · rcases op with _ | s
      · have hstep : edgeFold fromId toId (none, (e, str)) (k, x) =
            ((some k : Option ℕ), (e, str)) := by
          simp [edgeFold, hx]
        rw [List.enumFrom_cons, List.foldl_cons, hstep, IH (k + 1) (some k) e str]
        simp [runsAux, hx]
      · have hstep : edgeFold fromId toId (some s, (e, str)) (k, x) =
            ((some s : Option ℕ), (e, str)) := by
          simp [edgeFold, hx]
        rw [List.enumFrom_cons, List.foldl_cons, hstep, IH (k + 1) (some s) e str]
        simp [runsAux, hx]
    · rcases op with _ | s
      · have hstep : edgeFold fromId toId (none, (e, str)) (k, x) =
            ((none : Option ℕ), (e, str)) := by
          simp [edgeFold, hx, endRun]
        rw [List.enumFrom_cons, List.foldl_cons, hstep, IH (k + 1) none e str]
        simp [runsAux, hx]
      · have hstep : edgeFold fromId toId (some s, (e, str)) (k, x) =
            ((none : Option ℕ),
              ((if e then false else e),
                (if e then str ++ "    " ++ toString fromId ++ " -> "
                  ++ toString toId ++ " [label=\"" else str) ++ runRender (s, k))) := by
          cases e <;> simp [edgeFold, hx, endRun, runRender] <;>
            split <;> simp [String.append_assoc]
        rw [List.enumFrom_cons, List.foldl_cons, hstep,
          IH (k + 1) none (if e then false else e) _]
        rcases hrest : runsAux toId xs (k + 1) none with _ | ⟨r0, rest⟩
        · cases e <;>
            simp [runsAux, hx, hrest, labelOf, String.append_empty]
        · cases e <;>
            simp [runsAux, hx, hrest, labelOf, String.append_assoc]

/-- The runs produced by `runsAux` are exactly the maximal runs: sound,
covering, ascending, and bounded below. -/
theorem runsAux_spec (toId : ℕ) (row : List ℕ) :
    ∀ (n k : ℕ), k + n = row.length →
    ∀ (op : Option ℕ) (low : ℕ),
    ((op = none ∧ low = k ∧ (k = 0 ∨ row.getD (k - 1) 0 ≠ toId)) ∨
     (∃ s, op = some s ∧ low = s ∧ s < k ∧
       (∀ i, s ≤ i → i < k → row.getD i 0 = toId) ∧
       (s = 0 ∨ row.getD (s - 1) 0 ≠ toId))) →
    (∀ r ∈ runsAux toId (row.drop k) k op,
      r.1 < r.2 ∧ r.2 ≤ row.length ∧
      (∀ i, r.1 ≤ i → i < r.2 → row.getD i 0 = toId) ∧
      (r.1 = 0 ∨ row.getD (r.1 - 1) 0 ≠ toId) ∧
      (r.2 = row.length ∨ row.getD r.2 0 ≠ toId)) ∧
    (∀ i, low ≤ i → i < row.length → row.getD i 0 = toId →
      ∃ r ∈ runsAux toId (row.drop k) k op, r.1 ≤ i ∧ i < r.2) ∧
    List.Chain' (fun a b => a.2 < b.1) (runsAux toId (row.drop k) k op) ∧
    (∀ r ∈ runsAux toId (row.drop k) k op, low ≤ r.1) := by
  intro n
  induction n with
  | zero =>
    intro k hk op low hop
    have hkl : k = row.length := by omega
    have hdrop : row.drop k = [] := by
      rw [hkl, List.drop_length]
    rcases hop with ⟨hopn, hlow, hinv⟩ | ⟨s, hops, hlow, hs1, hs2, hs3⟩
    · subst hopn
      replace hlow := hlow.symm
      subst hlow
      rw [hdrop]
      refine ⟨by simp [runsAux], ?_, by simp [runsAux], by simp [runsAux]⟩
      intro i hi hi2 _
      omega
    · subst hops
      replace hlow := hlow.symm
      subst hlow
      rw [hdrop]
      refine ⟨?_, ?_, by simp [runsAux], ?_⟩
      · intro r hr
        rcases List.mem_singleton.mp hr with rfl
        refine ⟨hs1, le_of_eq hkl, fun i h1 h2 => hs2 i h1 h2, hs3, Or.inl hkl⟩
      · intro i hi hi2 hmem
        refine ⟨(s, k), List.mem_singleton.mpr rfl, hi, ?_⟩
        show i < k
        omega
      · intro r hr
        rcases List.mem_singleton.mp hr with rfl
        exact le_refl s
  | succ n IHn =>
    intro k hk op low hop
    have hklt : k < row.length := by omega
    have hdrop : row.drop k = row[k] :: row.drop (k + 1) :=
      List.drop_eq_getElem_cons hklt
    have hget : row.getD k 0 = row[k] := List.getD_eq_getElem row 0 hklt
    rw [hdrop]
    by_cases hx : row[k] = toId
    · rcases hop with ⟨hopn, hlow, hinv⟩ | ⟨s, hops, hlow, hs1, hs2, hs3⟩
      · subst hopn
        replace hlow := hlow.symm
        subst hlow
        have hrec := IHn (k + 1) (by omega) (some k) k
          (Or.inr ⟨k, rfl, rfl, by omega, ?_, hinv⟩)
        · rw [show runsAux toId (row[k] :: row.drop (k + 1)) k none =
              runsAux toId (row.drop (k + 1)) (k + 1) (some k) by
            simp [runsAux, hx]]
          obtain ⟨hsound, hcover, hchain, hlow2⟩ := hrec
          exact ⟨hsound, hcover, hchain, hlow2⟩
        · intro i h1 h2
          have hik : i = k := by omega
          rw [hik, hget]
          exact hx
      · subst hops
        replace hlow := hlow.symm
        subst hlow
        have hrec := IHn (k + 1) (by omega) (some s) s
          (Or.inr ⟨s, rfl, rfl, by omega, ?_, hs3⟩)
        · rw [show runsAux toId (row[k] :: row.drop (k + 1)) k (some s) =
              runsAux toId (row.drop (k + 1)) (k + 1) (some s) by
            simp [runsAux, hx]]
          exact hrec
        · intro i h1 h2
          rcases Nat.lt_or_ge i k with h3 | h3
          · exact hs2 i h1 h3
          · have hik : i = k := by omega
            rw [hik, hget]
            exact hx
    · have hnext : (k + 1) = 0 ∨ row.getD ((k + 1) - 1) 0 ≠ toId := by
        right
        simp only [Nat.add_sub_cancel]
        rw [hget]
        exact hx
      rcases hop with ⟨hopn, hlow, hinv⟩ | ⟨s, hops, hlow, hs1, hs2, hs3⟩
      · subst hopn
        replace hlow := hlow.symm
        subst hlow
        have hrec := IHn (k + 1) (by omega) none (k + 1)
          (Or.inl ⟨rfl, rfl, hnext⟩)
        rw [show runsAux toId (row[k] :: row.drop (k + 1)) k none =
            runsAux toId (row.drop (k + 1)) (k + 1) none by
          simp [runsAux, hx]]
        obtain ⟨hsound, hcover, hchain, hlow2⟩ := hrec
        refine ⟨hsound, ?_, hchain, ?_⟩
        · intro i hi hi2 hmem
          have hik : i ≠ k := by
            intro heq
            rw [heq, hget] at hmem
            exact hx hmem
          exact hcover i (by omega) hi2 hmem
        · intro r hr
          have := hlow2 r hr
          omega
      · subst hops
        replace hlow := hlow.symm
        subst hlow
        have hrec := IHn (k + 1) (by omega) none (k + 1)
          (Or.inl ⟨rfl, rfl, hnext⟩)
        obtain ⟨hsound, hcover, hchain, hlow2⟩ := hrec
        rw [show runsAux toId (row[k] :: row.drop (k + 1)) k (some s) =
            (s, k) :: runsAux toId (row.drop (k + 1)) (k + 1) none by
          simp [runsAux, hx]]
        refine ⟨?_, ?_, ?_, ?_⟩
        · intro r hr
          rcases List.mem_cons.mp hr with rfl | hr2
          · refine ⟨hs1, by omega, fun i h1 h2 => hs2 i h1 h2, hs3, ?_⟩
            right
            show row.getD k 0 ≠ toId
            rw [hget]
            exact hx
          · exact hsound r hr2
        · intro i hi hi2 hmem
          rcases Nat.lt_or_ge i k with h3 | h3
          · exact ⟨(s, k), List.mem_cons_self _ _, hi, h3⟩
          · have hik : i ≠ k := by
              intro heq
              rw [heq, hget] at hmem
              exact hx hmem
            rcases hcover i (by omega) hi2 hmem with ⟨r, hr, hr2⟩
            exact ⟨r, List.mem_cons_of_mem _ hr, hr2⟩
        · rw [List.chain'_cons']
          refine ⟨?_, hchain⟩
          intro b hb
          have hb2 : b ∈ runsAux toId (row.drop (k + 1)) (k + 1) none :=
            List.mem_of_mem_head? hb
          have hlb := hlow2 b hb2
          show k < b.1
          omega
        · intro r hr
          rcases List.mem_cons.mp hr with rfl | hr2
          · exact le_refl s
          · have := hlow2 r hr2
            omega

/-- C8: for every `(from, to)` pair, `edgeText` appends at most one line; it
appends one exactly when some input transitions to `to`, and the label is
the concatenation, in ascending order and without separators, of the
renderings of the maximal runs of inputs transitioning to `to` (runs of
fewer than four inputs as digits, others as `START-END` with `END` the last
included input). -/
theorem C8_edge_label_runs (row : List ℕ) (fromId toId : ℕ) (out : String)
    (hlen : row.length = 16) :
    ∃ rs : List (ℕ × ℕ),
      (∀ r ∈ rs, r.1 < r.2 ∧ r.2 ≤ 16 ∧
        (∀ i, r.1 ≤ i → i < r.2 → row.getD i 0 = toId) ∧
        (r.1 = 0 ∨ row.getD (r.1 - 1) 0 ≠ toId) ∧
        (r.2 = 16 ∨ row.getD r.2 0 ≠ toId)) ∧
      (∀ i, i < 16 → row.getD i 0 = toId → ∃ r ∈ rs, r.1 ≤ i ∧ i < r.2) ∧
      List.Chain' (fun a b => a.2 < b.1) rs ∧
      edgeText row fromId toId out =
        (if rs = [] then out
         else out ++ "    " ++ toString fromId ++ " -> " ++ toString toId
           ++ " [label=\"" ++ labelOf rs ++ "\"];\n") := by
  refine ⟨runsAux toId row 0 none, ?_, ?_, ?_, ?_⟩
  all_goals
    have hspec := runsAux_spec toId row 16 0 (by omega) none 0
      (Or.inl ⟨rfl, rfl, Or.inl rfl⟩)
    rw [List.drop_zero] at hspec
    obtain ⟨hsound, hcover, hchain, hlow⟩ := hspec
  · intro r hr
    obtain ⟨h1, h2, h3, h4, h5⟩ := hsound r hr
    rw [hlen] at h2 h5
    exact ⟨h1, h2, h3, h4, h5⟩
  · intro i hi hmem
    exact hcover i (by omega) (by omega) hmem
  · exact hchain
  · have hmain := edgeFold_runs fromId toId row 0 none true out
    rw [show (0 : ℕ) + row.length = 16 by omega] at hmain
    have henum : row.enum = row.enumFrom 0 := rfl
    simp only [edgeText, henum]
    rw [hmain]
    rcases hrs : runsAux toId row 0 none with _ | ⟨r0, rest⟩
    · simp [hrs]
    · simp [hrs, String.append_assoc]

/-- Witness for C8: a row with a short run, a long run and a singleton run
of inputs transitioning to state 1. -/
theorem C8_edge_label_runs_witness :
    ([1, 1, 0, 0, 0, 0, 0, 0, 1, 1, 1, 1, 1, 0, 1, 0] : List ℕ).length = 16 ∧
    ∃ rs : List (ℕ × ℕ),
      (∀ r ∈ rs, r.1 < r.2 ∧ r.2 ≤ 16 ∧
        (∀ i, r.1 ≤ i → i < r.2 →
          ([1, 1, 0, 0, 0, 0, 0, 0, 1, 1, 1, 1, 1, 0, 1, 0] : List ℕ).getD i 0 = 1) ∧
        (r.1 = 0 ∨
          ([1, 1, 0, 0, 0, 0, 0, 0, 1, 1, 1, 1, 1, 0, 1, 0] : List ℕ).getD (r.1 - 1) 0 ≠ 1) ∧
        (r.2 = 16 ∨
          ([1, 1, 0, 0, 0, 0, 0, 0, 1, 1, 1, 1, 1, 0, 1, 0] : List ℕ).getD r.2 0 ≠ 1)) ∧
      (∀ i, i < 16 →
        ([1, 1, 0, 0, 0, 0, 0, 0, 1, 1, 1, 1, 1, 0, 1, 0] : List ℕ).getD i 0 = 1 →
        ∃ r ∈ rs, r.1 ≤ i ∧ i < r.2) ∧
      List.Chain' (fun a b => a.2 < b.1) rs ∧
      edgeText [1, 1, 0, 0, 0, 0, 0, 0, 1, 1, 1, 1, 1, 0, 1, 0] 0 1 "" =
        (if rs = [] then ""
         else "" ++ "    " ++ toString 0 ++ " -> " ++ toString 1
           ++ " [label=\"" ++ labelOf rs ++ "\"];\n") :=
  ⟨by decide, C8_edge_label_runs [1, 1, 0, 0, 0, 0, 0, 0, 1, 1, 1, 1, 1, 0, 1, 0]
    0 1 "" (by decide)⟩

/-! ### C3: termination of the engine -/

/-- A configuration consistent with the program: the tape is the `⌈N/2⌉`
bytes the engine allocates, bytes stay below 256, the head is on the tape
and the instruction pointer at most one past the end. -/
def ValidState (p : Program) (st : InnerState) : Prop :=
  st.cells.length = (p.cellCount + 1) / 2 ∧
  (∀ b ∈ st.cells, b < 256) ∧
  st.headPosition < p.cellCount ∧
  st.instructionPosition ≤ p.instructions.length

/-- The cycle-detection set only ever holds distinct valid configurations
whose pointer sits on an instruction. -/
def GoodSeen (p : Program) (seen : List InnerState) : Prop :=
  seen.Nodup ∧ ∀ s ∈ seen, ValidState p s ∧
    s.instructionPosition < p.instructions.length

/-- Base-256 value of a byte list. -/
def cellsCode : List ℕ → ℕ
  | [] => 0
  | b :: bs => b + 256 * cellsCode bs

theorem cellsCode_lt (bs : List ℕ) (h : ∀ b ∈ bs, b < 256) :
    cellsCode bs < 256 ^ bs.length := by
  induction bs with
  | nil => simp [cellsCode]
  | cons b t IH =>
    have hb : b < 256 := h b (List.mem_cons_self _ _)
    have ht := IH (fun x hx => h x (List.mem_cons_of_mem _ hx))
    simp only [cellsCode, List.length_cons, pow_succ]
    have h2 : (cellsCode t + 1) * 256 ≤ 256 ^ t.length * 256 :=
      Nat.mul_le_mul_right 256 ht
    rw [Nat.add_mul, one_mul] at h2
    omega

theorem cellsCode_inj (bs : List ℕ) : ∀ (cs : List ℕ),
    bs.length = cs.length → (∀ b ∈ bs, b < 256) → (∀ b ∈ cs, b < 256) →
    cellsCode bs = cellsCode cs → bs = cs := by
  induction bs with
  | nil =>
    intro cs hlen _ _ _
    cases cs with
    | nil => rfl
    | cons c u => simp at hlen
  | cons b t IH =>
    intro cs hlen hb hc h
    cases cs with
    | nil => simp at hlen
    | cons c u =>
      simp only [cellsCode] at h
      have hb1 : b < 256 := hb b (List.mem_cons_self _ _)
      have hc1 : c < 256 := hc c (List.mem_cons_self _ _)
      have hbc : b = c := by omega
      have htu : cellsCode t = cellsCode u := by omega
      rw [hbc, IH u (by simpa using hlen)
        (fun x hx => hb x (List.mem_cons_of_mem _ hx))
        (fun x hx => hc x (List.mem_cons_of_mem _ hx)) htu]

/-- Injection of a configuration into a number below `K p`. -/
def encode (p : Program) (st : InnerState) : ℕ :=
  (cellsCode st.cells * p.cellCount + st.headPosition)
    * p.instructions.length + st.instructionPosition

/-- The number of valid configurations with the pointer on an
instruction. -/
def K (p : Program) : ℕ :=
  256 ^ ((p.cellCount + 1) / 2) * p.cellCount * p.instructions.length

theorem encode_lt (p : Program) (st : InnerState) (hv : ValidState p st)
    (hip : st.instructionPosition < p.instructions.length) :
    encode p st < K p := by
  obtain ⟨hl, hb, hh, _⟩ := hv
  have hc : cellsCode st.cells < 256 ^ ((p.cellCount + 1) / 2) := by
    rw [← hl]
    exact cellsCode_lt st.cells hb
  have h1 : (cellsCode st.cells + 1) * p.cellCount ≤
      256 ^ ((p.cellCount + 1) / 2) * p.cellCount :=
    Nat.mul_le_mul_right _ hc
  rw [Nat.add_mul, one_mul] at h1
  have h2 : (cellsCode st.cells * p.cellCount + st.headPosition + 1)
      * p.instructions.length ≤
      (256 ^ ((p.cellCount + 1) / 2) * p.cellCount) * p.instructions.length :=
    Nat.mul_le_mul_right _ (by omega)
  rw [Nat.add_mul, Nat.add_mul, one_mul] at h2
  simp only [encode, K, Nat.add_mul]
  omega

theorem encode_inj (p : Program) (s1 s2 : InnerState)
    (h1 : ValidState p s1) (h2 : ValidState p s2)
    (hip1 : s1.instructionPosition < p.instructions.length)
    (hip2 : s2.instructionPosition < p.instructions.length)
    (h : encode p s1 = encode p s2) : s1 = s2 := by
  obtain ⟨hl1, hb1, hh1, _⟩ := h1
  obtain ⟨hl2, hb2, hh2, _⟩ := h2
  have hlen : 0 < p.instructions.length := by omega
  have hN : 0 < p.cellCount := by omega
  simp only [encode] at h
  have e1 : ((cellsCode s1.cells * p.cellCount + s1.headPosition)
      * p.instructions.length + s1.instructionPosition)
      / p.instructions.length
      = cellsCode s1.cells * p.cellCount + s1.headPosition := by
    rw [mul_comm, Nat.mul_add_div hlen, Nat.div_eq_of_lt hip1, add_zero]
  have e2 : ((cellsCode s2.cells * p.cellCount + s2.headPosition)
      * p.instructions.length + s2.instructionPosition)
      / p.instructions.length
      = cellsCode s2.cells * p.cellCount + s2.headPosition := by
    rw [mul_comm, Nat.mul_add_div hlen, Nat.div_eq_of_lt hip2, add_zero]
  have hQ : cellsCode s1.cells * p.cellCount + s1.headPosition
      = cellsCode s2.cells * p.cellCount + s2.headPosition := by
    rw [← e1, ← e2, h]
  have hip : s1.instructionPosition = s2.instructionPosition := by
    rw [hQ] at h
    omega
  have f1 : (cellsCode s1.cells * p.cellCount + s1.headPosition)
      / p.cellCount = cellsCode s1.cells := by
    rw [mul_comm, Nat.mul_add_div hN, Nat.div_eq_of_lt hh1, add_zero]
  have f2 : (cellsCode s2.cells * p.cellCount + s2.headPosition)
      / p.cellCount = cellsCode s2.cells := by
    rw [mul_comm, Nat.mul_add_div hN, Nat.div_eq_of_lt hh2, add_zero]
  have hcc : cellsCode s1.cells = cellsCode s2.cells := by
    rw [← f1, ← f2, hQ]
  have hhead : s1.headPosition = s2.headPosition := by
    rw [hcc] at hQ
    omega
  have hcells : s1.cells = s2.cells :=
    cellsCode_inj s1.cells s2.cells (hl1.trans hl2.symm) hb1 hb2 hcc
  cases s1 with
  | mk c1 hd1 i1 =>
    cases s2 with
    | mk c2 hd2 i2 =>
      simp only at hcells hhead hip
      rw [hcells, hhead, hip]

theorem goodSeen_length_le (p : Program) (seen : List InnerState)
    (hg : GoodSeen p seen) : seen.length ≤ K p := by
  obtain ⟨hnd, hmem⟩ := hg
  have hndm : (seen.map (encode p)).Nodup := by
    refine List.Nodup.map_on ?_ hnd
    intro x hx y hy hxy
    obtain ⟨hvx, hipx⟩ := hmem x hx
    obtain ⟨hvy, hipy⟩ := hmem y hy
    exact encode_inj p x y hvx hvy hipx hipy hxy
  have hsub : (seen.map (encode p)).toFinset ⊆ Finset.range (K p) := by
    intro v hv
    rw [List.mem_toFinset] at hv
    rw [Finset.mem_range]
    rcases List.mem_map.mp hv with ⟨x, hx, rfl⟩
    obtain ⟨hvx, hipx⟩ := hmem x hx
    exact encode_lt p x hvx hipx
  have hcard := Finset.card_le_card hsub
  rw [Finset.card_range, List.toFinset_card_of_nodup hndm,
    List.length_map] at hcard
  exact hcard

/-- The local part of the termination potential, ranked by the instruction
under the pointer: an `EndLoop` still has to jump back (3), a skipping
`StartLoop` still has to reach past its matching `]` (2), an ordinary
instruction moves right (1), and a non-skipping `StartLoop` is about to
grow the seen set or halt (0). -/
def phi (p : Program) (st : InnerState) : ℕ :=
  match p.instructions.get? st.instructionPosition with
  | none => 0
  | some .endLoop => 3 * (p.instructions.length - st.instructionPosition) + 3
  | some .startLoop =>
      if u4get st.cells st.headPosition = 0 then
        match scanForward p.instructions st.instructionPosition 0 with
        | some e => 3 * (p.instructions.length - e) + 2
        | none => 0
      else 0
  | some _ => 3 * (p.instructions.length - st.instructionPosition) + 1

/-- The termination potential: each growth of the seen set pays for a full
sweep of the program. -/
def Phi (p : Program) (st : InnerState) (seen : List InnerState) : ℕ :=
  (K p - seen.length) * (3 * p.instructions.length + 4) + phi p st

theorem phi_le (p : Program) (st : InnerState) :
    phi p st ≤ 3 * (p.instructions.length - st.instructionPosition) + 3 := by
  rcases hget : p.instructions.get? st.instructionPosition with _ | i
  · simp only [phi, hget]
    omega
  · have hlt : st.instructionPosition < p.instructions.length :=
      (List.get?_eq_some.mp hget).1
    cases i
    all_goals simp only [phi, hget]
    case startLoop =>
      by_cases hz : u4get st.cells st.headPosition = 0
      · rw [if_pos hz]
        rcases hsf : scanForward p.instructions st.instructionPosition 0
          with _ | e
        · simp only [hsf]
          omega
        · simp only [hsf]
          have he := (scanForward_eq_some_iff p.instructions
            st.instructionPosition 0 e).mp hsf
          omega
      · rw [if_neg hz]
        omega
    all_goals omega

/-- Each looping step of the engine decreases the potential and preserves
the configuration and seen-set invariants. -/
theorem engineStep_decrease (p : Program) (hN : 0 < p.cellCount)
    (st : InnerState) (acc : Bool) (seen : List InnerState)
    (st' : InnerState) (acc' : Bool) (seen' : List InnerState)
    (hv : ValidState p st) (hg : GoodSeen p seen)
    (hstep : engineStep p st acc seen = .next st' acc' seen') :
    ValidState p st' ∧ GoodSeen p seen' ∧ Phi p st' seen' < Phi p st seen := by
  obtain ⟨hl, hb, hh, hiple⟩ := hv
  rcases hget : p.instructions.get? st.instructionPosition with _ | i
  · simp only [engineStep, hget] at hstep
    exact StepResult.noConfusion hstep
  · have hiplt : st.instructionPosition < p.instructions.length :=
      (List.get?_eq_some.mp hget).1
    cases i
    all_goals simp only [engineStep, hget] at hstep
    case moveLeft =>
      simp only [StepResult.next.injEq] at hstep
      obtain ⟨hst, hacc, hseen⟩ := hstep
      subst hst
      subst hseen
      refine ⟨⟨hl, hb, ?_, by simpa using hiplt⟩, hg, ?_⟩
      · simp only
        split <;> omega
      · simp only [Phi]
        have hle := phi_le p
          { st with
            headPosition :=
              if st.headPosition = 0 then p.cellCount - 1
              else st.headPosition - 1,
            instructionPosition := st.instructionPosition + 1 }
        simp only at hle
        have heq : phi p st
            = 3 * (p.instructions.length - st.instructionPosition) + 1 := by
          simp only [phi, hget]
        omega
    case moveRight =>
      simp only [StepResult.next.injEq] at hstep
      obtain ⟨hst, hacc, hseen⟩ := hstep
      subst hst
      subst hseen
      refine ⟨⟨hl, hb, ?_, by simpa using hiplt⟩, hg, ?_⟩
      · simp only
        split <;> omega
      · simp only [Phi]
        have hle := phi_le p
          { st with
            headPosition :=
              if st.headPosition = p.cellCount - 1 then 0
              else st.headPosition + 1,
            instructionPosition := st.instructionPosition + 1 }
        simp only at hle
        have heq : phi p st
            = 3 * (p.instructions.length - st.instructionPosition) + 1 := by
          simp only [phi, hget]
        omega
    case increment =>
      simp only [StepResult.next.injEq] at hstep
      obtain ⟨hst, hacc, hseen⟩ := hstep
      subst hst
      subst hseen
      refine ⟨⟨by simpa [u4set_length] using hl,
        u4set_bytes_lt _ _ _ hb, hh, by simpa using hiplt⟩, hg, ?_⟩
      simp only [Phi]
      have hle := phi_le p
        { st with
          cells := u4set st.cells st.headPosition
            (u4get st.cells st.headPosition + 1),
          instructionPosition := st.instructionPosition + 1 }
      simp only at hle
      have heq : phi p st
          = 3 * (p.instructions.length - st.instructionPosition) + 1 := by
        simp only [phi, hget]
      omega
    case decrement =>
      simp only [StepResult.next.injEq] at hstep
      obtain ⟨hst, hacc, hseen⟩ := hstep
      subst hst
      subst hseen
      refine ⟨⟨by simpa [u4set_length] using hl,
        u4set_bytes_lt _ _ _ hb, hh, by simpa using hiplt⟩, hg, ?_⟩
      simp only [Phi]
      have hle := phi_le p
        { st with
          cells := u4set st.cells st.headPosition
            ((u4get st.cells st.headPosition + 255) % 256),
          instructionPosition := st.instructionPosition + 1 }
      simp only at hle
      have heq : phi p st
          = 3 * (p.instructions.length - st.instructionPosition) + 1 := by
        simp only [phi, hget]
      omega
    case accept =>
      simp only [StepResult.next.injEq] at hstep
      obtain ⟨hst, hacc, hseen⟩ := hstep
      subst hst
      subst hseen
      refine ⟨⟨hl, hb, hh, by simpa using hiplt⟩, hg, ?_⟩
      simp only [Phi]
      have hle := phi_le p
        { st with instructionPosition := st.instructionPosition + 1 }
      simp only at hle
      have heq : phi p st
          = 3 * (p.instructions.length - st.instructionPosition) + 1 := by
        simp only [phi, hget]
      omega
    case read => exact StepResult.noConfusion hstep
    case endLoop =>
      rcases hsb : scanBack p.instructions st.instructionPosition 0 with _ | s
      · rw [hsb] at hstep
        exact StepResult.noConfusion hstep
      · rw [hsb] at hstep
        simp only [StepResult.next.injEq] at hstep
        obtain ⟨hst, hacc, hseen⟩ := hstep
        subst hst
        subst hseen
        obtain ⟨hsle, _, hSLs, _, _⟩ :=
          (scanBack_eq_some_iff p.instructions st.instructionPosition 0 s).mp hsb
        have hslt : s < p.instructions.length := by omega
        have hgets : p.instructions.get? s = some .startLoop := by
          rw [List.get?_eq_getElem?, List.getElem?_eq_getElem hslt,
            ← List.getD_eq_getElem p.instructions .moveLeft hslt, hSLs]
        refine ⟨⟨hl, hb, hh, by simp only; omega⟩, hg, ?_⟩
        simp only [Phi]
        have heq : phi p st
            = 3 * (p.instructions.length - st.instructionPosition) + 3 := by
          simp only [phi, hget]
        have hELip : p.instructions.getD st.instructionPosition .moveLeft
            = .endLoop := by
          rw [List.getD_eq_getElem p.instructions .moveLeft hiplt]
          have := List.get?_eq_some.mp hget
          rcases this with ⟨hh2, hh3⟩
          rw [← hh3]
          simp [List.get?_eq_getElem?, List.getElem?_eq_getElem hiplt]
        by_cases hz : u4get st.cells st.headPosition = 0
        · have hsf := scanForward_of_scanBack p.instructions
            st.instructionPosition s hELip hsb
          have heq2 : phi p { st with instructionPosition := s }
              = 3 * (p.instructions.length - st.instructionPosition) + 2 := by
            simp only [phi, hgets, hsf, hz, if_pos]
          omega
        · have heq2 : phi p { st with instructionPosition := s } = 0 := by
            simp only [phi, hgets]
            rw [if_neg hz]
          omega
    case startLoop =>
      by_cases hz : u4get st.cells st.headPosition = 0
      · rw [if_pos hz] at hstep
        rcases hsf : scanForward p.instructions st.instructionPosition 0
          with _ | e
        · rw [hsf] at hstep
          exact StepResult.noConfusion hstep
        · rw [hsf] at hstep
          simp only [StepResult.next.injEq] at hstep
          obtain ⟨hst, hacc, hseen⟩ := hstep
          subst hst
          subst hseen
          obtain ⟨hipe, helt, _, _, _⟩ :=
            (scanForward_eq_some_iff p.instructions
              st.instructionPosition 0 e).mp hsf
          refine ⟨⟨hl, hb, hh, by simp only; omega⟩, hg, ?_⟩
          simp only [Phi]
          have heq : phi p st
              = 3 * (p.instructions.length - e) + 2 := by
            simp only [phi, hget, hsf, hz, if_pos]
          have hle := phi_le p
            { st with instructionPosition := e + 1 }
          simp only at hle
          omega
      · rw [if_neg hz] at hstep
        by_cases hmem : st ∈ seen
        · rw [if_pos hmem] at hstep
          exact StepResult.noConfusion hstep
        · rw [if_neg hmem] at hstep
          simp only [StepResult.next.injEq] at hstep
          obtain ⟨hst, hacc, hseen⟩ := hstep
          subst hst
          subst hseen
          have hg' : GoodSeen p (st :: seen) := by
            refine ⟨List.nodup_cons.mpr ⟨hmem, hg.1⟩, ?_⟩
            intro x hx
            rcases List.mem_cons.mp hx with rfl | hx2
            · exact ⟨⟨hl, hb, hh, hiple⟩, hiplt⟩
            · exact hg.2 x hx2
          have hK := goodSeen_length_le p (st :: seen) hg'
          rw [List.length_cons] at hK
          refine ⟨⟨hl, hb, hh, by simpa using hiplt⟩, hg', ?_⟩
          simp only [Phi, List.length_cons]
          have heq : phi p st = 0 := by
            simp only [phi, hget]
            rw [if_neg hz]
          have hle := phi_le p
            { st with instructionPosition := st.instructionPosition + 1 }
          simp only at hle
          have hsplit : K p - seen.length
              = (K p - (seen.length + 1)) + 1 := by omega
          rw [hsplit, Nat.add_mul, one_mul]
          omega

/-- Enough fuel, measured by the potential, makes the engine loop return. -/
theorem runLoop_some (p : Program) (hN : 0 < p.cellCount) :
    ∀ (m : ℕ) (st : InnerState) (acc : Bool) (seen : List InnerState),
    ValidState p st → GoodSeen p seen → Phi p st seen ≤ m →
    ∃ r, runLoop p (m + 1) st acc seen = some r := by
  intro m
  induction m with
  | zero =>
    intro st acc seen hv hg hm
    rcases hstep : engineStep p st acc seen with r | ⟨st2, acc2, seen2⟩
    · exact ⟨r, by rw [runLoop, hstep]⟩
    · obtain ⟨_, _, hdec⟩ :=
        engineStep_decrease p hN st acc seen st2 acc2 seen2 hv hg hstep
      omega
  | succ m IH =>
    intro st acc seen hv hg hm
    rcases hstep : engineStep p st acc seen with r | ⟨st2, acc2, seen2⟩
    · exact ⟨r, by rw [runLoop, hstep]⟩
    · obtain ⟨hv2, hg2, hdec⟩ :=
        engineStep_decrease p hN st acc seen st2 acc2 seen2 hv hg hstep
      obtain ⟨r, hr⟩ := IH st2 acc2 seen2 hv2 hg2 (by omega)
      refine ⟨r, ?_⟩
      rw [runLoop, hstep]
      exact hr

/-- C3: from any valid configuration, a single call to the engine
terminates — a fuel bound exists under which `run_with_next_input` returns
a result (a `Read`, a halt off the ends, or a detected cycle). -/
theorem C3_engine_terminates (p : Program) (st : InnerState) (input : ℕ)
    (hN : 0 < p.cellCount) (hv : ValidState p st) :
    ∃ fuel r, run_with_next_input p fuel st input = some r := by
  obtain ⟨hl, hb, hh, hiple⟩ := hv
  have hv0 : ValidState p
      { st with cells := u4set st.cells st.headPosition input } :=
    ⟨by simpa [u4set_length] using hl, u4set_bytes_lt _ _ _ hb, hh, hiple⟩
  have hg0 : GoodSeen p [] := ⟨List.nodup_nil, by simp⟩
  obtain ⟨r, hr⟩ := runLoop_some p hN
    (Phi p { st with cells := u4set st.cells st.headPosition input } [])
    { st with cells := u4set st.cells st.headPosition input } false []
    hv0 hg0 (le_refl _)
  exact ⟨Phi p { st with cells := u4set st.cells st.headPosition input } [] + 1,
    r, hr⟩

/-- Witness for C3 on a small valid configuration. -/
theorem C3_engine_terminates_witness :
    0 < (Program.mk 1 [.increment]).cellCount ∧
    ValidState ⟨1, [.increment]⟩ ⟨[0], 0, 0⟩ ∧
    ∃ fuel r,
      run_with_next_input ⟨1, [.increment]⟩ fuel ⟨[0], 0, 0⟩ 5 = some r :=
  ⟨by decide, ⟨by decide, by decide, by decide, by decide⟩,
    C3_engine_terminates ⟨1, [.increment]⟩ ⟨[0], 0, 0⟩ 5 (by decide)
      ⟨by decide, by decide, by decide, by decide⟩⟩

end BFA
